import Mathlib

/-! Verification of `read_ply` (ASCII PLY point-cloud ingestion).

Shallow embedding of `read_ply.h`.  The function opens a file in binary mode, reads
lines with `std::getline` until one of them is exactly `end_header`, then repeats
`in >> x >> y >> z` and appends one point per successful triple.

The input stream is explicit state: the unread bytes, `eofbit`, `failbit` and whether
the file handle is held.  Numeric conversion is delegated, as in the C++ library, to a
`num_get` facet, which is a parameter of the embedding; the value type `D` stands for
`double`.
-/

namespace ReadPly

/-! ## Data model -/

/-- The type `Kernel::Point_3`: three coordinates. -/
structure Point (D : Type) where
  x : D
  y : D
  z : D
deriving DecidableEq

/-- What a path names: the bytes of a file that can be opened, or nothing. -/
abbrev FileSystem := String → Option (List Char)

/-- State of a `std::ifstream`: handle, unread bytes and the two state bits the
function can observe (`badbit` needs an I/O error and is not modelled). -/
structure ifstream where
  is_open : Bool
  rdbuf : List Char
  eofbit : Bool
  failbit : Bool
deriving DecidableEq

namespace ifstream

/-- The constructor `std::ifstream in(filename, std::ios::binary)`: binary mode, so the
bytes are delivered untranslated; a failed open sets `failbit`. -/
def init (fs : FileSystem) (filename : String) : ifstream :=
  match fs filename with
  | some bytes => { is_open := true, rdbuf := bytes, eofbit := false, failbit := false }
  | none => { is_open := false, rdbuf := [], eofbit := false, failbit := true }

/-- The member `good()`: no state bit is set. -/
def good (s : ifstream) : Bool := !s.eofbit && !s.failbit

/-- The member `fail()`, which `!in` and the `while (in ...)` conversions test. -/
def fail (s : ifstream) : Bool := s.failbit

/-- The member `close()`: releases the handle; closing a stream that holds none sets
`failbit`. -/
def close (s : ifstream) : ifstream :=
  if s.is_open then { s with is_open := false } else { s with failbit := true }

/-- The destructor, run when the local `in` leaves scope at a `return`. -/
def dtor (s : ifstream) : ifstream := { s with is_open := false }

/-- Bound on the work left on a stream: used for termination of the two loops. -/
def fuel (s : ifstream) : Nat := if s.good then s.rdbuf.length + 1 else 0

end ifstream

/-! ## Library operations used by `read_ply` -/

/-- The characters before the first newline, and the input after that newline
(`none` when the input ends before a newline is met). -/
def takeLine : List Char → List Char × Option (List Char)
  | [] => ([], none)
  | c :: cs =>
    if c = '\n' then ([], some cs)
    else ((c :: (takeLine cs).1), (takeLine cs).2)

/-- The call `std::getline(in, line)`: on a stream that is not good it only sets
`failbit`; otherwise it extracts up to and including the next newline, sets `eofbit`
when the input ends first, and `failbit` when nothing at all was extracted. -/
def getline (s : ifstream) : ifstream × List Char :=
  if s.good then
    match takeLine s.rdbuf with
    | (line, some rest) => ({ s with rdbuf := rest }, line)
    | (line, none) => ({ s with rdbuf := [], eofbit := true, failbit := line.isEmpty }, line)
  else ({ s with failbit := true }, [])

/-- The classification `std::isspace` in the classic locale: space, `\t`, `\n`, `\v`,
`\f`, `\r`. -/
def isspace (c : Char) : Bool :=
  c = ' ' || c = '\t' || c = '\n' || c = '\x0b' || c = '\x0c' || c = '\r'

/-- Whitespace skipping done by the stream sentry before a formatted extraction. -/
def skipws : List Char → List Char
  | [] => []
  | c :: cs => if isspace c then skipws cs else c :: cs

/-- The facet `std::num_get` for `double`: from input that starts at a non-space
character it yields the value, or `none` for a conversion failure, together with the
input it left unread.  It never un-reads, and a successful conversion consumes at
least one character. -/
structure num_get (D : Type) where
  get : List Char → Option D × List Char
  get_le : ∀ s, (get s).2.length ≤ s.length
  get_lt : ∀ s v, (get s).1 = some v → (get s).2.length < s.length

/-- The extraction `in >> x` for a `double`: nothing but `failbit` on a stream that is
not good; otherwise skip whitespace, fail with `eofbit` and `failbit` at end of input,
else let the facet convert; `eofbit` is set when the facet reached the end of input. -/
def extract {D : Type} (ng : num_get D) (s : ifstream) : ifstream × Option D :=
  if s.good then
    match skipws s.rdbuf with
    | [] => ({ s with rdbuf := [], eofbit := true, failbit := true }, none)
    | c :: cs =>
      ({ s with rdbuf := (ng.get (c :: cs)).2,
                eofbit := (ng.get (c :: cs)).2.isEmpty,
                failbit := (ng.get (c :: cs)).1.isNone },
        (ng.get (c :: cs)).1)
  else ({ s with failbit := true }, none)

/-- The literal compared with each header line. -/
def end_header : List Char := "end_header".toList

/-! ## The function `read_ply` -/

/-- The loop `while (std::getline(in, line)) { if (line == "end_header") { header_ended
= true; break; } }`: returns the stream and `header_ended`. -/
def header_loop (s : ifstream) : ifstream × Bool :=
  if _h : (getline s).1.failbit = false then
    if (getline s).2 = end_header then ((getline s).1, true)
    else header_loop (getline s).1
  else ((getline s).1, false)
termination_by s.fuel
decreasing_by
  obtain ⟨o, b, e, f⟩ := s
  cases e <;> cases f <;> simp [getline, ifstream.good] at _h
  simp only [getline, ifstream.good, ifstream.fuel, Bool.not_false, Bool.and_self, if_true]
  rcases hl : takeLine b with ⟨line, _ | rest⟩
  · simp
  · have hlen : ∀ (l r : List Char), (takeLine l).2 = some r → r.length < l.length := by
      intro l
      induction l with
      | nil => intro r h; simp [takeLine] at h
      | cons c cs ih =>
        intro r h
        unfold takeLine at h
        split at h
        · simp at h; subst h; simp
        · have := ih r h
          simp only [List.length_cons]; omega
    have := hlen b rest (by rw [hl])
    simp
    omega

/-- The loop `while (in >> x >> y >> z) { points.emplace_back(x, y, z); }`: the three
extractions are chained on the same stream, the condition is the stream after the
third one, and a point is appended when it has not failed.  The three values exist
whenever that stream has not failed (`extract_value_of_not_failed`), so the last
branch of the `match` is never taken. -/
def triple_loop {D : Type} (ng : num_get D) (s : ifstream) (points : List (Point D)) :
    ifstream × List (Point D) :=
  if _h : (extract ng (extract ng (extract ng s).1).1).1.failbit = false then
    match (extract ng s).2, (extract ng (extract ng s).1).2,
        (extract ng (extract ng (extract ng s).1).1).2 with
    | some x, some y, some z =>
      triple_loop ng (extract ng (extract ng (extract ng s).1).1).1 (points ++ [⟨x, y, z⟩])
    | _, _, _ => ((extract ng (extract ng (extract ng s).1).1).1, points)
  else ((extract ng (extract ng (extract ng s).1).1).1, points)
termination_by s.fuel
decreasing_by
  have hsk : ∀ b : List Char, (skipws b).length ≤ b.length := by
    intro b
    induction b with
    | nil => simp [skipws]
    | cons c cs ih =>
      unfold skipws
      split
      · simp only [List.length_cons]; omega
      · simp
  have hle : ∀ t : ifstream, (extract ng t).1.fuel ≤ t.fuel := by
    intro t
    obtain ⟨o, b, e, f⟩ := t
    cases e <;> cases f <;> simp [extract, ifstream.good, ifstream.fuel]
    rcases hk : skipws b with _ | ⟨c, cs⟩
    · simp
    · have h1 := ng.get_le (c :: cs)
      have h2 := hsk b
      rw [hk] at h2
      simp only [List.length_cons] at h1 h2
      simp only
      split <;> omega
  have hlt : ∀ t : ifstream, (extract ng t).1.failbit = false →
      (extract ng t).1.fuel < t.fuel := by
    intro t h
    obtain ⟨o, b, e, f⟩ := t
    cases e <;> cases f <;> simp [extract, ifstream.good] at h
    simp only [extract, ifstream.good, ifstream.fuel, Bool.not_false, Bool.and_self, if_true]
    rcases hk : skipws b with _ | ⟨c, cs⟩
    · simp [hk] at h
    · simp only [hk] at h
      have h2 := hsk b
      rw [hk] at h2
      rcases hv : (ng.get (c :: cs)).1 with _ | v
      · simp [hv] at h
      · have h1 := ng.get_lt (c :: cs) v hv
        simp only [List.length_cons] at h1 h2
        simp only
        split <;> omega
  have h3 := hlt _ _h
  have h2 := hle (extract ng s).1
  have h1 := hle s
  omega

/-- What a call leaves behind: the returned boolean, the vector `points`, the lines
written to `std::cerr`, and the stream `in` after its scope has ended. -/
structure Outcome (D : Type) where
  ret : Bool
  points : List (Point D)
  cerr : List String
  stream : ifstream

/-- The function `read_ply(filename, points)`. -/
def read_ply {D : Type} (ng : num_get D) (fs : FileSystem) (filename : String)
    (points : List (Point D)) : Outcome D :=
  if (ifstream.init fs filename).fail then
    { ret := false, points := points,
      cerr := ["Cannot load PLY: " ++ filename ++ "\n"],
      stream := (ifstream.init fs filename).dtor }
  else
    if !(header_loop (ifstream.init fs filename)).2 then
      { ret := false, points := points,
        cerr := ["PLY format not valid: missing 'end_header'.\n"],
        stream := (header_loop (ifstream.init fs filename)).1.dtor }
    else
      { ret := true,
        points := (triple_loop ng (header_loop (ifstream.init fs filename)).1 points).2,
        cerr := [],
        stream := (triple_loop ng (header_loop (ifstream.init fs filename)).1 points).1.close.dtor }

/-! ## A concrete facet: decimal literals in the classic locale -/

/-- An exact decimal value `(-1)^neg * mantissa * 10^exponent`.  It stands for the
`double` a conversion yields; rounding to binary64 is outside the model, so two
literals that round to the same `double` stay distinct values. -/
structure Decimal where
  neg : Bool
  mantissa : Nat
  exponent : Int
deriving DecidableEq

/-- Stage 2 of `num_get::do_get` for floating point in the classic locale, after the
optional leading sign: digits, at most one decimal point before any exponent, one
exponent mark once a digit has been seen, and a sign right after the exponent mark.
Returns the accumulated field and the unread input. -/
def scan_float : (mant dec sci afterE : Bool) → List Char → List Char × List Char
  | _, _, _, _, [] => ([], [])
  | mant, dec, sci, afterE, c :: cs =>
    if c.isDigit then
      (c :: (scan_float true dec sci false cs).1, (scan_float true dec sci false cs).2)
    else if c = '.' && !dec && !sci then
      (c :: (scan_float mant true sci false cs).1, (scan_float mant true sci false cs).2)
    else if (c = 'e' || c = 'E') && !sci && mant then
      ('e' :: (scan_float mant dec true true cs).1, (scan_float mant dec true true cs).2)
    else if (c = '+' || c = '-') && afterE then
      (c :: (scan_float mant dec sci false cs).1, (scan_float mant dec sci false cs).2)
    else ([], c :: cs)

/-- Stage 2 with the optional leading sign. -/
def extract_float : List Char → List Char × List Char
  | [] => ([], [])
  | c :: cs =>
    if c = '+' || c = '-' then
      (c :: (scan_float false false false false cs).1,
        (scan_float false false false false cs).2)
    else scan_float false false false false (c :: cs)

/-- Value of a string of decimal digits. -/
def digits_value (ds : List Char) : Nat :=
  ds.foldl (fun n c => 10 * n + (c.toNat - 48)) 0

/-- Splits an optional sign off: `true` for a minus sign. -/
def split_sign : List Char → Bool × List Char
  | '-' :: r => (true, r)
  | '+' :: r => (false, r)
  | r => (false, r)

/-- The number `2^1024 - 2^970`, the midpoint between the largest finite `double` and
`2^1024`: a value rounds to an infinite binary64 exactly when it is at least this. -/
def overflow_threshold : Nat :=
  179769313486231580793728971405303415079934132710037826936173778980444968292764750946649017977587207096330286416692887910946555547851940402630657488671505820681908902000708383676273854845817711531764475730270069855571366959622842914819860834936475292719074168444365510704342711559699508093042880177904174497792

/-- The range check of stage 3: the decimal value `mantissa * 10^exponent` rounds to an
infinite binary64, on which the conversion sets `failbit`. -/
def out_of_range (mantissa : Nat) (exponent : Int) : Bool :=
  if 0 ≤ exponent then decide (overflow_threshold ≤ mantissa * 10 ^ exponent.toNat)
  else decide (overflow_threshold * 10 ^ (-exponent).toNat ≤ mantissa)

/-- A converted value, unless it is out of range. -/
def in_range (d : Decimal) : Option Decimal :=
  if out_of_range d.mantissa d.exponent then none else some d

/-- Stage 3: conversion of the accumulated field as `strtod` reads it, failing unless
the whole field is one decimal floating literal whose value is in the range of
`double`. -/
def convert_to_v (field : List Char) : Option Decimal :=
  let ip := (split_sign field).2.takeWhile Char.isDigit
  let f2 := (split_sign field).2.dropWhile Char.isDigit
  let fp := match f2 with
    | '.' :: r => r.takeWhile Char.isDigit
    | _ => []
  let f3 := match f2 with
    | '.' :: r => r.dropWhile Char.isDigit
    | r => r
  if ip = [] ∧ fp = [] then none
  else
    match f3 with
    | [] => in_range ⟨(split_sign field).1, digits_value (ip ++ fp), - (fp.length : Int)⟩
    | 'e' :: r =>
      if (split_sign r).2 ≠ [] ∧ (split_sign r).2.all Char.isDigit then
        in_range ⟨(split_sign field).1, digits_value (ip ++ fp),
          (if (split_sign r).1 then - (digits_value (split_sign r).2 : Int)
            else (digits_value (split_sign r).2 : Int)) - (fp.length : Int)⟩
      else none
    | _ => none

/-- The facet function of the classic locale on decimal literals. -/
def classic_get (s : List Char) : Option Decimal × List Char :=
  (convert_to_v (extract_float s).1, (extract_float s).2)

/-- The facet of the classic locale on decimal literals, used for the concrete files
of the witnesses and counterexamples; the general theorems hold for every facet. -/
def classic : num_get Decimal where
  get := classic_get
  get_le := by
    have hscan : ∀ (s : List Char) (m d e a : Bool),
        (scan_float m d e a s).1.length + (scan_float m d e a s).2.length = s.length := by
      intro s
      induction s with
      | nil => intro m d e a; simp [scan_float]
      | cons c cs ih =>
        intro m d e a
        unfold scan_float
        split_ifs
        · have := ih true d e false; simp only [List.length_cons]; omega
        · have := ih m true e false; simp only [List.length_cons]; omega
        · have := ih m d true true; simp only [List.length_cons]; omega
        · have := ih m d e false; simp only [List.length_cons]; omega
        · simp
    intro s
    cases s with
    | nil => simp [classic_get, extract_float]
    | cons c cs =>
      simp only [classic_get, extract_float]
      split_ifs
      · have := hscan cs false false false false; simp only [List.length_cons]; omega
      · have := hscan (c :: cs) false false false false; omega
  get_lt := by
    have hscan : ∀ (s : List Char) (m d e a : Bool),
        (scan_float m d e a s).1.length + (scan_float m d e a s).2.length = s.length := by
      intro s
      induction s with
      | nil => intro m d e a; simp [scan_float]
      | cons c cs ih =>
        intro m d e a
        unfold scan_float
        split_ifs
        · have := ih true d e false; simp only [List.length_cons]; omega
        · have := ih m true e false; simp only [List.length_cons]; omega
        · have := ih m d true true; simp only [List.length_cons]; omega
        · have := ih m d e false; simp only [List.length_cons]; omega
        · simp
    intro s v hv
    cases s with
    | nil => simp [classic_get, extract_float, convert_to_v, split_sign] at hv
    | cons c cs =>
      simp only [classic_get, extract_float] at hv ⊢
      split_ifs at hv ⊢
      · have := hscan cs false false false false; simp only [List.length_cons]; omega
      · have h1 := hscan (c :: cs) false false false false
        have h2 : (scan_float false false false false (c :: cs)).1 ≠ [] := by
          intro h0
          rw [h0] at hv
          simp [convert_to_v, split_sign] at hv
        have h3 : 0 < (scan_float false false false false (c :: cs)).1.length :=
          List.length_pos.mpr h2
        omega

/-! ## Vocabulary of the specification -/

/-- Input position at which a token ends: end of input, or a whitespace character. -/
def Delimited (b : List Char) : Prop :=
  b = [] ∨ ∃ c r, b = c :: r ∧ isspace c = true

/-- A well-formed numeric token `t` with value `v`: it holds no whitespace, and the
facet, started on `t` followed by a token end, consumes exactly `t` and yields `v`. -/
def Tok {D : Type} (ng : num_get D) (t : List Char) (v : D) : Prop :=
  (∀ c ∈ t, isspace c = false) ∧ ∀ rest, Delimited rest → ng.get (t ++ rest) = (some v, rest)

/-- A non-numeric token: non-empty, without whitespace, and the facet fails on input
that starts with it. -/
def NonNumeric {D : Type} (ng : num_get D) (g : List Char) : Prop :=
  g ≠ [] ∧ (∀ c ∈ g, isspace c = false) ∧ ∀ rest, (ng.get (g ++ rest)).1 = none

/-- The text `b` holds the tokens `toks`, in order, with arbitrary whitespace before
and between them, every token ending at a token end, and then continues with `rest`. -/
inductive Separated (rest : List Char) : List Char → List (List Char) → Prop
  | done : Separated rest rest []
  | space (c : Char) (b : List Char) (toks : List (List Char)) :
      isspace c = true → Separated rest b toks → Separated rest (c :: b) toks
  | token (t : List Char) (b : List Char) (toks : List (List Char)) :
      Delimited b → Separated rest b toks → Separated rest (t ++ b) (t :: toks)

/-- Input at which the next extraction fails: the end of input, or a non-numeric
token followed by anything. -/
def Stops {D : Type} (ng : num_get D) (rest : List Char) : Prop :=
  rest = [] ∨ ∃ g r, NonNumeric ng g ∧ rest = g ++ r

/-- Consecutive values grouped three by three into points; one or two values left
over make no point. -/
def triples {D : Type} : List D → List (Point D)
  | x :: y :: z :: r => ⟨x, y, z⟩ :: triples r
  | _ => []

/-- A header line: no newline inside, and not the terminator. -/
def HeaderLine (l : List Char) : Prop := (∀ c ∈ l, c ≠ '\n') ∧ l ≠ end_header

/-- The text of a list of lines, each followed by a newline. -/
def linesText (ls : List (List Char)) : List Char := (ls.map (· ++ ['\n'])).flatten

/-- A body line of three tokens together with the point they denote. -/
structure Row (D : Type) where
  tx : List Char
  ty : List Char
  tz : List Char
  p : Point D

/-- The text `x y z` of a body line, without its newline. -/
def Row.text {D : Type} (r : Row D) : List Char := r.tx ++ ' ' :: (r.ty ++ ' ' :: r.tz)

/-- The three tokens of the line are well-formed and denote the coordinates of `p`. -/
def Row.WellFormed {D : Type} (ng : num_get D) (r : Row D) : Prop :=
  Tok ng r.tx r.p.x ∧ Tok ng r.ty r.p.y ∧ Tok ng r.tz r.p.z

/-- The tokens of a list of body lines, in file order. -/
def rowTokens {D : Type} : List (Row D) → List (List Char)
  | [] => []
  | r :: rs => r.tx :: r.ty :: r.tz :: rowTokens rs

/-- The coordinates of a list of body lines, in file order. -/
def rowValues {D : Type} : List (Row D) → List D
  | [] => []
  | r :: rs => r.p.x :: r.p.y :: r.p.z :: rowValues rs

/-- The trimmed content of a line, in the words of the specification: the line with
leading and trailing whitespace (space, tab, carriage return, ...) removed.  The code
has no such operation. -/
def trim (l : List Char) : List Char :=
  ((l.dropWhile isspace).reverse.dropWhile isspace).reverse

/-- The line `l` holds `end_header` together with some other non-whitespace
character before or after it. -/
def CarriesOther (l : List Char) : Prop :=
  ∃ pre post, l = pre ++ end_header ++ post ∧ ∃ c ∈ pre ++ post, isspace c = false

/-- The whitespace-separated tokens of a text, in the words of the specification: the
maximal runs of non-whitespace characters. -/
def wsTokens (b : List Char) : List (List Char) :=
  (b.splitOnP isspace).filter (fun t => !t.isEmpty)

/-! ## Basic facts about the library operations -/

theorem extract_not_good {D : Type} (ng : num_get D) (s : ifstream) (h : s.good = false) :
    extract ng s = ({ s with failbit := true }, none) := by
  simp [extract, h]

theorem extract_failbit_mono {D : Type} (ng : num_get D) (s : ifstream)
    (h : s.failbit = true) : (extract ng s).1.failbit = true := by
  simp [extract, ifstream.good, h]

theorem extract_space {D : Type} (ng : num_get D) (o : Bool) (c : Char) (b : List Char)
    (hc : isspace c = true) :
    extract ng ⟨o, c :: b, false, false⟩ = extract ng ⟨o, b, false, false⟩ := by
  simp [extract, ifstream.good, skipws, hc]

theorem tok_ne_nil {D : Type} (ng : num_get D) (t : List Char) (v : D) (h : Tok ng t v) :
    t ≠ [] := by
  intro ht
  have h1 := h.2 [] (Or.inl rfl)
  have h2 := ng.get_lt (t ++ []) v (by rw [h1])
  rw [h1, ht] at h2
  simp at h2

theorem skipws_of_head {c : Char} {cs : List Char} (hc : isspace c = false) :
    skipws (c :: cs) = c :: cs := by
  simp [skipws, hc]

theorem extract_token {D : Type} (ng : num_get D) (o : Bool) (t b : List Char) (v : D)
    (ht : Tok ng t v) (hb : Delimited b) :
    extract ng ⟨o, t ++ b, false, false⟩ = (⟨o, b, b.isEmpty, false⟩, some v) := by
  have hne := tok_ne_nil ng t v ht
  obtain ⟨c, cs, rfl⟩ := List.exists_cons_of_ne_nil hne
  have hc : isspace c = false := ht.1 c (by simp)
  have hg := ht.2 b hb
  simp only [List.cons_append] at hg ⊢
  simp [extract, ifstream.good, skipws, hc, hg]

theorem extract_nonnumeric {D : Type} (ng : num_get D) (o : Bool) (g r : List Char)
    (hg : NonNumeric ng g) :
    (extract ng ⟨o, g ++ r, false, false⟩).1.failbit = true := by
  obtain ⟨c, cs, rfl⟩ := List.exists_cons_of_ne_nil hg.1
  have hc : isspace c = false := hg.2.1 c (by simp)
  have h := hg.2.2 r
  simp only [List.cons_append] at h ⊢
  simp [extract, ifstream.good, skipws, hc, h]

theorem extract_nil {D : Type} (ng : num_get D) (o e : Bool) :
    (extract ng ⟨o, [], e, false⟩).1.failbit = true := by
  cases e <;> simp [extract, ifstream.good, skipws]

/-! ## The triple loop on whitespace-separated tokens -/

theorem separated_extract_some {D : Type} (ng : num_get D) (o : Bool) (rest : List Char)
    (b : List Char) (toks0 : List (List Char)) (h : Separated rest b toks0) :
    ∀ (t : List Char) (toks : List (List Char)) (v : D), toks0 = t :: toks → Tok ng t v →
      ∃ b1, extract ng ⟨o, b, false, false⟩ = (⟨o, b1, b1.isEmpty, false⟩, some v) ∧
        Separated rest b1 toks := by
  induction h with
  | done => intro t toks v h0; simp at h0
  | space c b toks1 hc _ ih =>
    intro t toks v h0 ht
    obtain ⟨b1, h1, h2⟩ := ih t toks v h0 ht
    exact ⟨b1, by rw [extract_space ng o c b hc, h1], h2⟩
  | token t1 b toks1 hd hs _ =>
    intro t toks v h0 ht
    simp only [List.cons.injEq] at h0
    obtain ⟨rfl, rfl⟩ := h0
    exact ⟨b, extract_token ng o t1 b v ht hd, hs⟩

theorem separated_extract_none {D : Type} (ng : num_get D) (o : Bool) (rest : List Char)
    (hstop : Stops ng rest) (b : List Char) (toks0 : List (List Char))
    (h : Separated rest b toks0) :
    toks0 = [] → (extract ng ⟨o, b, false, false⟩).1.failbit = true := by
  induction h with
  | done =>
    intro _
    rcases hstop with rfl | ⟨g, r, hg, rfl⟩
    · exact extract_nil ng o false
    · exact extract_nonnumeric ng o g r hg
  | space c b toks1 hc _ ih =>
    intro h0
    rw [extract_space ng o c b hc]
    exact ih h0
  | token t1 b toks1 _ _ _ => intro h0; simp at h0

theorem separated_nil_cons {D : Type} (ng : num_get D) (rest : List Char)
    (t : List Char) (toks : List (List Char)) (v : D) (ht : Tok ng t v)
    (h : Separated rest [] (t :: toks)) : False := by
  generalize hb : ([] : List Char) = b at h
  generalize ht0 : t :: toks = toks0 at h
  cases h with
  | done => simp at ht0
  | space c b toks1 hc _ => simp at hb
  | token t1 b toks1 _ _ =>
    simp only [List.cons.injEq] at ht0
    obtain ⟨rfl, _⟩ := ht0
    have := tok_ne_nil ng t v ht
    cases t with
    | nil => exact this rfl
    | cons c cs => simp at hb

/-- One successful extraction on a stream that has not failed. -/
theorem extract_next {D : Type} (ng : num_get D) (o e : Bool) (rest b : List Char)
    (he : e = true → b = []) (t : List Char) (toks : List (List Char)) (v : D)
    (h : Separated rest b (t :: toks)) (ht : Tok ng t v) :
    ∃ b1, extract ng ⟨o, b, e, false⟩ = (⟨o, b1, b1.isEmpty, false⟩, some v) ∧
      Separated rest b1 toks := by
  cases e with
  | true =>
    have hb := he rfl
    subst hb
    exact (separated_nil_cons ng rest t toks v ht h).elim
  | false => exact separated_extract_some ng o rest b _ h t toks v rfl ht

theorem extract_last {D : Type} (ng : num_get D) (o e : Bool) (rest b : List Char)
    (hstop : Stops ng rest) (h : Separated rest b []) :
    (extract ng ⟨o, b, e, false⟩).1.failbit = true := by
  cases e with
  | true => simp [extract, ifstream.good]
  | false => exact separated_extract_none ng o rest hstop b _ h rfl

theorem triple_loop_step {D : Type} (ng : num_get D) (s s1 s2 s3 : ifstream) (x y z : D)
    (P : List (Point D)) (h1 : extract ng s = (s1, some x)) (h2 : extract ng s1 = (s2, some y))
    (h3 : extract ng s2 = (s3, some z)) (hf : s3.failbit = false) :
    triple_loop ng s P = triple_loop ng s3 (P ++ [⟨x, y, z⟩]) := by
  rw [triple_loop]
  simp [h1, h2, h3, hf]

theorem triple_loop_stop {D : Type} (ng : num_get D) (s : ifstream) (P : List (Point D))
    (hf : (extract ng (extract ng (extract ng s).1).1).1.failbit = true) :
    triple_loop ng s P = ((extract ng (extract ng (extract ng s).1).1).1, P) := by
  rw [triple_loop]
  simp [hf]

theorem isEmpty_imp_nil (b : List Char) : b.isEmpty = true → b = [] := by
  cases b <;> simp

theorem triple_loop_separated {D : Type} (ng : num_get D) (rest : List Char)
    (hstop : Stops ng rest) (n : Nat) :
    ∀ (toks : List (List Char)) (vals : List D) (o e : Bool) (b : List Char)
      (P : List (Point D)), toks.length = n → (e = true → b = []) →
      Separated rest b toks → List.Forall₂ (Tok ng) toks vals →
      (triple_loop ng ⟨o, b, e, false⟩ P).2 = P ++ triples vals := by
  induction n using Nat.strong_induction_on with
  | _ n ih =>
    intro toks vals o e b P hn he hs hall
    cases hall with
    | nil =>
      have h1 := extract_last ng o e rest b hstop hs
      have h2 := extract_failbit_mono ng _ h1
      have h3 := extract_failbit_mono ng _ h2
      rw [triple_loop_stop ng _ P h3]
      simp [triples]
    | @cons t1 v1 toks1 vals1 ht1 hall1 =>
      obtain ⟨b1, hx1, hs1⟩ := extract_next ng o e rest b he t1 toks1 v1 hs ht1
      cases hall1 with
      | nil =>
        have h2 : (extract ng (extract ng ⟨o, b, e, false⟩).1).1.failbit = true := by
          rw [hx1]
          exact extract_last ng o _ rest b1 hstop hs1
        have h3 := extract_failbit_mono ng _ h2
        rw [triple_loop_stop ng _ P h3]
        simp [triples]
      | @cons t2 v2 toks2 vals2 ht2 hall2 =>
        obtain ⟨b2, hx2, hs2⟩ :=
          extract_next ng o _ rest b1 (isEmpty_imp_nil b1) t2 toks2 v2 hs1 ht2
        cases hall2 with
        | nil =>
          have h3 : (extract ng (extract ng (extract ng ⟨o, b, e, false⟩).1).1).1.failbit
              = true := by
            rw [hx1]
            simp only
            rw [hx2]
            exact extract_last ng o _ rest b2 hstop hs2
          rw [triple_loop_stop ng _ P h3]
          simp [triples]
        | @cons t3 v3 toks3 vals3 ht3 hall3 =>
          obtain ⟨b3, hx3, hs3⟩ :=
            extract_next ng o _ rest b2 (isEmpty_imp_nil b2) t3 toks3 v3 hs2 ht3
          rw [triple_loop_step ng _ _ _ _ v1 v2 v3 P hx1 hx2 hx3 rfl]
          have hlen : toks3.length < n := by
            simp only [List.length_cons] at hn; omega
          rw [ih toks3.length hlen toks3 vals3 o _ b3 _ rfl (isEmpty_imp_nil b3) hs3 hall3]
          simp [triples]

/-! ## Frame of the triple loop -/

theorem extract_value_of_not_failed {D : Type} (ng : num_get D) (s : ifstream)
    (h : (extract ng s).1.failbit = false) : ∃ v, (extract ng s).2 = some v := by
  obtain ⟨o, b, e, f⟩ := s
  cases e <;> cases f <;> simp [extract, ifstream.good] at h ⊢
  rcases hk : skipws b with _ | ⟨c, cs⟩
  · simp [hk] at h
  · simp only [hk] at h ⊢
    rcases hv : (ng.get (c :: cs)).1 with _ | v
    · simp [hv] at h
    · exact ⟨v, rfl⟩

theorem triple_loop_unfold_some {D : Type} (ng : num_get D) (s : ifstream) (x y z : D)
    (P : List (Point D))
    (hf : (extract ng (extract ng (extract ng s).1).1).1.failbit = false)
    (hx : (extract ng s).2 = some x) (hy : (extract ng (extract ng s).1).2 = some y)
    (hz : (extract ng (extract ng (extract ng s).1).1).2 = some z) :
    triple_loop ng s P =
      triple_loop ng (extract ng (extract ng (extract ng s).1).1).1 (P ++ [⟨x, y, z⟩]) := by
  rw [triple_loop]
  simp [hf, hx, hy, hz]

theorem triple_loop_frame {D : Type} (ng : num_get D) (s : ifstream) (P : List (Point D)) :
    triple_loop ng s P = ((triple_loop ng s []).1, P ++ (triple_loop ng s []).2) := by
  suffices h : ∀ (s : ifstream) (P0 : List (Point D)), ∀ Q : List (Point D),
      triple_loop ng s Q = ((triple_loop ng s []).1, Q ++ (triple_loop ng s []).2) from
    h s [] P
  intro s P0
  induction s, P0 using triple_loop.induct ng with
  | case1 s _ hf x y z hz hy hx ih =>
    intro Q
    rw [triple_loop_unfold_some ng s x y z Q hf hx hy hz,
      triple_loop_unfold_some ng s x y z [] hf hx hy hz, ih (Q ++ [Point.mk x y z]),
      ih ([] ++ [Point.mk x y z])]
    simp
  | case2 s _ hf hno =>
    intro Q
    exfalso
    have h2 : (extract ng (extract ng s).1).1.failbit = false := by
      by_contra hc
      have := extract_failbit_mono ng _ (by simpa using hc)
      rw [hf] at this
      exact Bool.noConfusion this
    have h1 : (extract ng s).1.failbit = false := by
      by_contra hc
      have := extract_failbit_mono ng _ (by simpa using hc)
      rw [h2] at this
      exact Bool.noConfusion this
    obtain ⟨x, hx⟩ := extract_value_of_not_failed ng _ h1
    obtain ⟨y, hy⟩ := extract_value_of_not_failed ng _ h2
    obtain ⟨z, hz⟩ := extract_value_of_not_failed ng _ hf
    exact hno x y z hx hy hz
  | case3 s _ hf =>
    intro Q
    have hf1 : (extract ng (extract ng (extract ng s).1).1).1.failbit = true := by
      simpa using hf
    rw [triple_loop_stop ng s Q hf1, triple_loop_stop ng s [] hf1]
    simp

/-! ## The header scan -/

theorem takeLine_line (l r : List Char) (hl : ∀ c ∈ l, c ≠ '\n') :
    takeLine (l ++ '\n' :: r) = (l, some r) := by
  induction l with
  | nil => simp [takeLine]
  | cons c cs ih =>
    have hc : c ≠ '\n' := hl c (by simp)
    have := ih (fun d hd => hl d (by simp [hd]))
    simp [takeLine, hc, this]

theorem takeLine_last (l : List Char) (hl : ∀ c ∈ l, c ≠ '\n') :
    takeLine l = (l, none) := by
  induction l with
  | nil => simp [takeLine]
  | cons c cs ih =>
    have hc : c ≠ '\n' := hl c (by simp)
    have := ih (fun d hd => hl d (by simp [hd]))
    simp [takeLine, hc, this]

theorem end_header_no_newline : ∀ c ∈ end_header, c ≠ '\n' := by decide

theorem getline_line (o : Bool) (l r : List Char) (hl : ∀ c ∈ l, c ≠ '\n') :
    getline ⟨o, l ++ '\n' :: r, false, false⟩ = (⟨o, r, false, false⟩, l) := by
  simp [getline, ifstream.good, takeLine_line l r hl]

theorem getline_last (o : Bool) (l : List Char) (hl : ∀ c ∈ l, c ≠ '\n') :
    getline ⟨o, l, false, false⟩ = (⟨o, [], true, l.isEmpty⟩, l) := by
  simp [getline, ifstream.good, takeLine_last l hl]

theorem header_loop_skip (o : Bool) (l r : List Char) (hl : HeaderLine l) :
    header_loop ⟨o, l ++ '\n' :: r, false, false⟩ = header_loop ⟨o, r, false, false⟩ := by
  rw [header_loop]
  simp [getline_line o l r hl.1, hl.2]

theorem header_loop_found (o : Bool) (r : List Char) :
    header_loop ⟨o, end_header ++ '\n' :: r, false, false⟩ = (⟨o, r, false, false⟩, true) := by
  rw [header_loop]
  simp [getline_line o end_header r end_header_no_newline]

theorem header_loop_found_eof (o : Bool) :
    header_loop ⟨o, end_header, false, false⟩ = (⟨o, [], true, false⟩, true) := by
  rw [header_loop]
  rw [getline_last o end_header end_header_no_newline]
  simp [end_header]

theorem header_loop_lines (o : Bool) (hs : List (List Char)) (r : List Char)
    (hh : ∀ l ∈ hs, HeaderLine l) :
    header_loop ⟨o, linesText hs ++ r, false, false⟩ = header_loop ⟨o, r, false, false⟩ := by
  induction hs with
  | nil => simp [linesText]
  | cons l ls ih =>
    have h1 : linesText (l :: ls) ++ r = l ++ '\n' :: (linesText ls ++ r) := by
      simp [linesText]
    rw [h1, header_loop_skip o l _ (hh l (by simp)), ih (fun m hm => hh m (by simp [hm]))]

theorem takeLine_rest_length (b rest : List Char) (h : (takeLine b).2 = some rest) :
    rest.length < b.length := by
  induction b with
  | nil => simp [takeLine] at h
  | cons c cs ih =>
    unfold takeLine at h
    split at h
    · simp at h; subst h; simp
    · have := ih h
      simp only [List.length_cons]; omega

theorem splitOn_takeLine (b : List Char) :
    b.splitOn '\n' =
      match takeLine b with
      | (l, some r) => l :: r.splitOn '\n'
      | (l, none) => [l] := by
  induction b with
  | nil => simp [takeLine, List.splitOn]
  | cons c cs ih =>
    unfold List.splitOn at ih ⊢
    rw [List.splitOnP_cons]
    by_cases hc : c = '\n'
    · simp [takeLine, hc]
    · rw [ih]
      rcases hk : takeLine cs with ⟨l, _ | r⟩ <;> simp [takeLine, hc, hk, List.modifyHead]

theorem header_loop_eof (o : Bool) (b : List Char) (f : Bool) :
    (header_loop ⟨o, b, true, f⟩).2 = false := by
  rw [header_loop]
  simp [getline, ifstream.good]

theorem header_loop_iff (n : Nat) :
    ∀ (o : Bool) (b : List Char), b.length = n →
      ((header_loop ⟨o, b, false, false⟩).2 = true ↔ end_header ∈ b.splitOn '\n') := by
  induction n using Nat.strong_induction_on with
  | _ n ih =>
    intro o b hn
    rw [splitOn_takeLine b, header_loop]
    rcases hk : takeLine b with ⟨l, _ | r⟩
    · by_cases hl : l = []
      · subst hl
        simp [getline, ifstream.good, hk, end_header]
      · by_cases he : l = end_header
        · simp [getline, ifstream.good, hk, he, end_header]
        · have h1 : ¬ end_header = l := fun h => he h.symm
          simp [getline, ifstream.good, hk, hl, he, h1, header_loop_eof]
    · have hlen : r.length < n := by
        have := takeLine_rest_length b r (by rw [hk])
        omega
      have := ih r.length hlen o r rfl
      by_cases he : l = end_header
      · simp [getline, ifstream.good, hk, he]
      · have h1 : ¬ end_header = l := fun h => he h.symm
        simp [getline, ifstream.good, hk, he, h1, this]

theorem read_ply_closed {D : Type} (ng : num_get D) (fs : FileSystem) (filename : String)
    (P : List (Point D)) (h : fs filename = none) :
    read_ply ng fs filename P =
      { ret := false, points := P, cerr := ["Cannot load PLY: " ++ filename ++ "\n"],
        stream := ⟨false, [], false, true⟩ } := by
  simp [read_ply, ifstream.init, h, ifstream.fail, ifstream.dtor]

theorem read_ply_ret {D : Type} (ng : num_get D) (fs : FileSystem) (filename : String)
    (P : List (Point D)) (b : List Char) (h : fs filename = some b) :
    (read_ply ng fs filename P).ret = (header_loop ⟨true, b, false, false⟩).2 := by
  simp only [read_ply, ifstream.init, h, ifstream.fail]
  cases (header_loop ⟨true, b, false, false⟩).2 <;> simp

theorem read_ply_points {D : Type} (ng : num_get D) (fs : FileSystem) (filename : String)
    (P : List (Point D)) (b : List Char) (h : fs filename = some b) :
    (read_ply ng fs filename P).points =
      if (header_loop ⟨true, b, false, false⟩).2 = true then
        (triple_loop ng (header_loop ⟨true, b, false, false⟩).1 P).2
      else P := by
  simp only [read_ply, ifstream.init, h, ifstream.fail]
  cases (header_loop ⟨true, b, false, false⟩).2 <;> simp

/-! ## Tokens of the classic facet -/

theorem scan_float_delimited (t rest : List Char) (hd : Delimited rest) :
    ∀ (m d e a : Bool), (scan_float m d e a t).2 = [] →
      scan_float m d e a (t ++ rest) = ((scan_float m d e a t).1, rest) := by
  induction t with
  | nil =>
    intro m d e a _
    rcases hd with rfl | ⟨c, r, rfl, hc⟩
    · simp [scan_float]
    · have hc6 : ((((c = ' ' ∨ c = '\t') ∨ c = '\n') ∨ c = '\x0b') ∨ c = '\x0c') ∨
          c = '\r' := by
        simpa [isspace] using hc
      rcases hc6 with ((((rfl | rfl) | rfl) | rfl) | rfl) | rfl <;>
        cases m <;> cases d <;> cases e <;> cases a <;> rfl
  | cons c cs ih =>
    intro m d e a h
    simp only [List.cons_append]
    unfold scan_float at h ⊢
    split_ifs at h ⊢
    · simp only at h; rw [ih _ _ _ _ h]
    · simp only at h; rw [ih _ _ _ _ h]
    · simp only at h; rw [ih _ _ _ _ h]
    · simp only at h; rw [ih _ _ _ _ h]

theorem classic_tok (t : List Char) (v : Decimal) (hws : ∀ c ∈ t, isspace c = false)
    (hall : (extract_float t).2 = []) (hv : convert_to_v (extract_float t).1 = some v) :
    Tok classic t v := by
  refine ⟨hws, ?_⟩
  intro rest hd
  show classic_get (t ++ rest) = (some v, rest)
  cases t with
  | nil => simp [extract_float, convert_to_v, split_sign] at hv
  | cons c cs =>
    simp only [classic_get, List.cons_append]
    simp only [extract_float] at hall hv ⊢
    split_ifs at hall hv ⊢
    · simp only at hall hv
      rw [scan_float_delimited cs rest hd _ _ _ _ hall]
      simp [hv]
    · have := scan_float_delimited (c :: cs) rest hd _ _ _ _ hall
      simp only [List.cons_append] at this
      rw [this]
      simp [hv]

/-! ## Files with a terminator line -/

theorem read_ply_body {D : Type} (ng : num_get D) (fs : FileSystem) (filename : String)
    (P : List (Point D)) (header : List (List Char)) (body : List Char)
    (hopen : fs filename = some (linesText header ++ end_header ++ '\n' :: body))
    (hheader : ∀ l ∈ header, HeaderLine l) :
    (read_ply ng fs filename P).ret = true ∧
      (read_ply ng fs filename P).points = (triple_loop ng ⟨true, body, false, false⟩ P).2 := by
  have hl : header_loop ⟨true, linesText header ++ end_header ++ '\n' :: body, false, false⟩
      = (⟨true, body, false, false⟩, true) := by
    rw [List.append_assoc, header_loop_lines true header _ hheader, header_loop_found]
  rw [read_ply_ret ng fs filename P _ hopen, read_ply_points ng fs filename P _ hopen, hl]
  simp

theorem read_ply_body_eof {D : Type} (ng : num_get D) (fs : FileSystem) (filename : String)
    (P : List (Point D)) (header : List (List Char))
    (hopen : fs filename = some (linesText header ++ end_header))
    (hheader : ∀ l ∈ header, HeaderLine l) :
    (read_ply ng fs filename P).ret = true ∧ (read_ply ng fs filename P).points = P := by
  have hl : header_loop ⟨true, linesText header ++ end_header, false, false⟩
      = (⟨true, [], true, false⟩, true) := by
    rw [header_loop_lines true header _ hheader, header_loop_found_eof]
  rw [read_ply_ret ng fs filename P _ hopen, read_ply_points ng fs filename P _ hopen, hl]
  have h1 := extract_nil ng true true
  have h2 := extract_failbit_mono ng _ h1
  have h3 := extract_failbit_mono ng _ h2
  simp [triple_loop_stop ng _ P h3]

theorem rows_separated {D : Type} (ng : num_get D) (rows : List (Row D))
    (hrows : ∀ r ∈ rows, r.WellFormed ng) :
    Separated [] (linesText (rows.map Row.text)) (rowTokens rows) ∧
      List.Forall₂ (Tok ng) (rowTokens rows) (rowValues rows) ∧
      triples (rowValues rows) = rows.map Row.p := by
  induction rows with
  | nil => exact ⟨Separated.done, List.Forall₂.nil, rfl⟩
  | cons r rs ih =>
    obtain ⟨h1, h2, h3⟩ := ih (fun q hq => hrows q (by simp [hq]))
    obtain ⟨hx, hy, hz⟩ := hrows r (by simp)
    refine ⟨?_, ?_, ?_⟩
    · have htext : linesText ((r :: rs).map Row.text) =
          r.tx ++ (' ' :: (r.ty ++ (' ' :: (r.tz ++ ('\n' :: linesText (rs.map Row.text)))))) := by
        simp [linesText, Row.text]
      rw [htext]
      have hsp : isspace ' ' = true := by decide
      have hnl : isspace '\n' = true := by decide
      refine Separated.token _ _ _ (Or.inr ⟨_, _, rfl, hsp⟩) ?_
      refine Separated.space _ _ _ hsp ?_
      refine Separated.token _ _ _ (Or.inr ⟨_, _, rfl, hsp⟩) ?_
      refine Separated.space _ _ _ hsp ?_
      refine Separated.token _ _ _ (Or.inr ⟨_, _, rfl, hnl⟩) ?_
      exact Separated.space _ _ _ hnl h1
    · exact List.Forall₂.cons hx (List.Forall₂.cons hy (List.Forall₂.cons hz h2))
    · simp [rowValues, triples, h3]

/-! ## The claims -/

/-- C1: round trip on well-formed input.  A file that opens and consists of header
lines (none of them the terminator), the line `end_header`, and then `N` lines `x y z`
of three well-formed numeric tokens makes `read_ply`, called with an empty sequence,
return true and leave exactly the `N` points of those lines, in file order, each with
the values the token parser yields. -/
theorem C1_round_trip {D : Type} (ng : num_get D) (fs : FileSystem) (filename : String)
    (header : List (List Char)) (rows : List (Row D))
    (hopen : fs filename =
      some (linesText header ++ end_header ++ '\n' :: linesText (rows.map Row.text)))
    (hheader : ∀ l ∈ header, HeaderLine l)
    (hrows : ∀ r ∈ rows, r.WellFormed ng) :
    (read_ply ng fs filename []).ret = true ∧
      (read_ply ng fs filename []).points = rows.map Row.p ∧
      (read_ply ng fs filename []).points.length = rows.length := by
  obtain ⟨hret, hpts⟩ := read_ply_body ng fs filename [] header _ hopen hheader
  obtain ⟨hsep, htok, htri⟩ := rows_separated ng rows hrows
  have hloop := triple_loop_separated ng [] (Or.inl rfl) _ (rowTokens rows) (rowValues rows)
    true false _ [] rfl (fun h => Bool.noConfusion h) hsep htok
  rw [hloop, htri] at hpts
  simp only [List.nil_append] at hpts
  exact ⟨hret, hpts, by rw [hpts, List.length_map]⟩

/-- Witness of C1: a header of two lines, the terminator and two body lines. -/
theorem C1_round_trip_witness :
    (read_ply classic
        (fun _ => some "ply\nformat ascii 1.0\nend_header\n1.0 2.0 3.0\n-4 5e1 .5\n".toList)
        "cloud.ply" []).ret = true ∧
      (read_ply classic
        (fun _ => some "ply\nformat ascii 1.0\nend_header\n1.0 2.0 3.0\n-4 5e1 .5\n".toList)
        "cloud.ply" []).points =
        [⟨⟨false, 10, -1⟩, ⟨false, 20, -1⟩, ⟨false, 30, -1⟩⟩,
         ⟨⟨true, 4, 0⟩, ⟨false, 5, 1⟩, ⟨false, 5, -1⟩⟩] := by
  have h := C1_round_trip classic
    (fun _ => some "ply\nformat ascii 1.0\nend_header\n1.0 2.0 3.0\n-4 5e1 .5\n".toList)
    "cloud.ply" ["ply".toList, "format ascii 1.0".toList]
    [⟨"1.0".toList, "2.0".toList, "3.0".toList,
        ⟨⟨false, 10, -1⟩, ⟨false, 20, -1⟩, ⟨false, 30, -1⟩⟩⟩,
     ⟨"-4".toList, "5e1".toList, ".5".toList,
        ⟨⟨true, 4, 0⟩, ⟨false, 5, 1⟩, ⟨false, 5, -1⟩⟩⟩]
    (by decide)
    (by
      intro l hl
      simp only [List.mem_cons, List.mem_singleton, List.not_mem_nil, or_false] at hl
      rcases hl with rfl | rfl <;> exact ⟨by decide, by decide⟩)
    (by
      intro r hr
      simp only [List.mem_cons, List.mem_singleton, List.not_mem_nil, or_false] at hr
      rcases hr with rfl | rfl <;>
        exact ⟨classic_tok _ _ (by decide) (by decide) (by decide),
          classic_tok _ _ (by decide) (by decide) (by decide),
          classic_tok _ _ (by decide) (by decide) (by decide)⟩)
  exact ⟨h.1, h.2.1⟩

/-- C2: `read_ply` returns true exactly when the file can be opened and some line of
it is the terminator `end_header`; nothing in the body (no triple at all, malformed
numbers, leftover tokens) enters the condition. -/
theorem C2_success_iff {D : Type} (ng : num_get D) (fs : FileSystem) (filename : String)
    (P : List (Point D)) :
    (read_ply ng fs filename P).ret = true ↔
      ∃ b, fs filename = some b ∧ end_header ∈ b.splitOn '\n' := by
  rcases hopen : fs filename with _ | b
  · rw [read_ply_closed ng fs filename P hopen]
    simp
  · rw [read_ply_ret ng fs filename P b hopen, header_loop_iff b.length true b rfl]
    simp

theorem read_ply_no_terminator {D : Type} (ng : num_get D) (fs : FileSystem)
    (filename : String) (P : List (Point D)) (b : List Char)
    (hopen : fs filename = some b) (hno : end_header ∉ b.splitOn '\n') :
    (read_ply ng fs filename P).ret = false ∧ (read_ply ng fs filename P).points = P := by
  have h : (header_loop ⟨true, b, false, false⟩).2 = false := by
    have := header_loop_iff b.length true b rfl
    cases hh : (header_loop ⟨true, b, false, false⟩).2
    · rfl
    · exact (hno (this.mp hh)).elim
  rw [read_ply_ret ng fs filename P b hopen, read_ply_points ng fs filename P b hopen, h]
  simp

theorem read_ply_terminator {D : Type} (ng : num_get D) (fs : FileSystem)
    (filename : String) (P : List (Point D)) (b : List Char)
    (hopen : fs filename = some b) (hterm : end_header ∈ b.splitOn '\n') :
    (read_ply ng fs filename P).ret = true := by
  rw [read_ply_ret ng fs filename P b hopen]
  exact (header_loop_iff b.length true b rfl).mpr hterm

/-- C3: missing terminator.  When the file opens but none of its lines is
`end_header`, `read_ply` returns false and the point sequence is the one passed in,
whatever numeric triples the file holds. -/
theorem C3_missing_terminator {D : Type} (ng : num_get D) (fs : FileSystem)
    (filename : String) (P : List (Point D)) (b : List Char)
    (hopen : fs filename = some b) (hno : end_header ∉ b.splitOn '\n') :
    (read_ply ng fs filename P).ret = false ∧ (read_ply ng fs filename P).points = P :=
  read_ply_no_terminator ng fs filename P b hopen hno

/-- Witness of C3: a file of well-formed triples without a terminator line, read into
a sequence that already holds one point. -/
theorem C3_missing_terminator_witness :
    (read_ply classic (fun _ => some "ply\n1 2 3\n4 5 6\n".toList) "cloud.ply"
        [⟨⟨false, 7, 0⟩, ⟨false, 8, 0⟩, ⟨false, 9, 0⟩⟩]).ret = false ∧
      (read_ply classic (fun _ => some "ply\n1 2 3\n4 5 6\n".toList) "cloud.ply"
        [⟨⟨false, 7, 0⟩, ⟨false, 8, 0⟩, ⟨false, 9, 0⟩⟩]).points =
        [⟨⟨false, 7, 0⟩, ⟨false, 8, 0⟩, ⟨false, 9, 0⟩⟩] :=
  C3_missing_terminator classic (fun _ => some "ply\n1 2 3\n4 5 6\n".toList) "cloud.ply"
    [⟨⟨false, 7, 0⟩, ⟨false, 8, 0⟩, ⟨false, 9, 0⟩⟩] "ply\n1 2 3\n4 5 6\n".toList rfl
    (by decide)

/-- C4: open failure.  When the path cannot be opened, `read_ply` returns false (the
embedding is a total function: nothing is raised) and the point sequence is the one
passed in. -/
theorem C4_open_failure {D : Type} (ng : num_get D) (fs : FileSystem) (filename : String)
    (P : List (Point D)) (hopen : fs filename = none) :
    (read_ply ng fs filename P).ret = false ∧ (read_ply ng fs filename P).points = P := by
  rw [read_ply_closed ng fs filename P hopen]
  exact ⟨rfl, rfl⟩

/-- Witness of C4: a file system without any file. -/
theorem C4_open_failure_witness :
    (read_ply classic (fun _ => none) "missing.ply" []).ret = false ∧
      (read_ply classic (fun _ => none) "missing.ply" []).points = [] :=
  C4_open_failure classic (fun _ => none) "missing.ply" [] rfl

/-- C5, as stated, fails: in a file with CRLF line endings the terminator line reads
`end_header` followed by a carriage return; its trimmed content is `end_header`, yet
`read_ply` does not find a terminator and returns false. -/
theorem C5_counterexample :
    (∃ l ∈ "ply\r\nend_header\r\n1 2 3\r\n".toList.splitOn '\n', trim l = end_header) ∧
      (read_ply classic (fun _ => some "ply\r\nend_header\r\n1 2 3\r\n".toList)
        "cloud.ply" []).ret = false :=
  ⟨⟨"end_header\r".toList, by decide, by decide⟩,
    (read_ply_no_terminator classic (fun _ => some "ply\r\nend_header\r\n1 2 3\r\n".toList)
      "cloud.ply" [] "ply\r\nend_header\r\n1 2 3\r\n".toList rfl (by decide)).1⟩

/-- C5, amended: terminator detection compares the whole line, byte for byte.  For
every file that opens and in which some line is exactly `end_header`, with no
surrounding space, tab or carriage return, `read_ply` finds the terminator and returns
true. -/
theorem C5_exact_terminator {D : Type} (ng : num_get D) (fs : FileSystem)
    (filename : String) (P : List (Point D)) (b : List Char)
    (hopen : fs filename = some b) (hterm : end_header ∈ b.splitOn '\n') :
    (read_ply ng fs filename P).ret = true :=
  read_ply_terminator ng fs filename P b hopen hterm

/-- Witness of the amended C5: the same file with LF line endings. -/
theorem C5_exact_terminator_witness :
    (read_ply classic (fun _ => some "ply\nend_header\n1 2 3\n".toList)
      "cloud.ply" []).ret = true :=
  C5_exact_terminator classic (fun _ => some "ply\nend_header\n1 2 3\n".toList)
    "cloud.ply" [] "ply\nend_header\n1 2 3\n".toList rfl (by decide)

theorem triples_length {D : Type} (n : Nat) :
    ∀ vals : List D, vals.length = n → (triples vals).length = n / 3 := by
  induction n using Nat.strong_induction_on with
  | _ n ih =>
    intro vals hn
    match vals, hn with
    | [], hn => simp at hn; subst hn; simp [triples]
    | [_], hn => simp at hn; subst hn; simp [triples]
    | [_, _], hn => simp at hn; subst hn; simp [triples]
    | x :: y :: z :: r, hn =>
      simp only [List.length_cons] at hn
      have := ih r.length (by omega) r rfl
      simp only [triples, List.length_cons, this]
      omega

/-- C6, as stated, fails: `1-2-3` is a token (non-empty, free of whitespace) that is
not a well-formed numeric token, yet after the line `1.0 2.0 3.0` it does not end
parsing: the extractions read `1`, `-2` and `-3` out of it, and a second point is
appended. -/
theorem C6_counterexample :
    ("1-2-3".toList ≠ [] ∧ (∀ c ∈ "1-2-3".toList, isspace c = false) ∧
        ¬ ∃ v, Tok classic "1-2-3".toList v) ∧
      (read_ply classic (fun _ => some "end_header\n1.0 2.0 3.0\n1-2-3\n".toList)
        "cloud.ply" []).ret = true ∧
      (read_ply classic (fun _ => some "end_header\n1.0 2.0 3.0\n1-2-3\n".toList)
        "cloud.ply" []).points =
        [⟨⟨false, 10, -1⟩, ⟨false, 20, -1⟩, ⟨false, 30, -1⟩⟩,
         ⟨⟨false, 1, 0⟩, ⟨true, 2, 0⟩, ⟨true, 3, 0⟩⟩] := by
  refine ⟨⟨by decide, by decide, ?_⟩, ?_⟩
  · rintro ⟨v, hv⟩
    have h := hv.2 [] (Or.inl rfl)
    have h2 : (classic.get ("1-2-3".toList ++ [])).2 = "-2-3".toList := by decide
    rw [h] at h2
    have h3 : ([] : List Char) = "-2-3".toList := h2
    exact absurd h3 (by decide)
  · have hb := read_ply_body classic
      (fun _ => some "end_header\n1.0 2.0 3.0\n1-2-3\n".toList) "cloud.ply" [] []
      "1.0 2.0 3.0\n1-2-3\n".toList rfl (by simp)
    refine ⟨hb.1, ?_⟩
    rw [hb.2]
    rw [triple_loop_step classic ⟨true, "1.0 2.0 3.0\n1-2-3\n".toList, false, false⟩
      ⟨true, " 2.0 3.0\n1-2-3\n".toList, false, false⟩
      ⟨true, " 3.0\n1-2-3\n".toList, false, false⟩
      ⟨true, "\n1-2-3\n".toList, false, false⟩
      ⟨false, 10, -1⟩ ⟨false, 20, -1⟩ ⟨false, 30, -1⟩ [] (by decide) (by decide) (by decide)
      rfl]
    rw [triple_loop_step classic ⟨true, "\n1-2-3\n".toList, false, false⟩
      ⟨true, "-2-3\n".toList, false, false⟩
      ⟨true, "-3\n".toList, false, false⟩
      ⟨true, "\n".toList, false, false⟩
      ⟨false, 1, 0⟩ ⟨true, 2, 0⟩ ⟨true, 3, 0⟩ _ (by decide) (by decide) (by decide) rfl]
    rw [triple_loop_stop classic _ _ (by decide)]
    rfl

/-- C6, amended: trailing garbage that the number parser rejects truncates silently.
When the body holds well-formed numeric tokens separated by whitespace and then, after
whitespace, a token on which numeric extraction fails at its first character (such as
`abc`), followed by anything, `read_ply` returns true and appends exactly the triples
formed by the tokens before it. -/
theorem C6_trailing_garbage {D : Type} (ng : num_get D) (fs : FileSystem)
    (filename : String) (P : List (Point D)) (header : List (List Char))
    (body g junk : List Char) (toks : List (List Char)) (vals : List D)
    (hopen : fs filename = some (linesText header ++ end_header ++ '\n' :: body))
    (hheader : ∀ l ∈ header, HeaderLine l)
    (hbody : Separated (g ++ junk) body toks)
    (htoks : List.Forall₂ (Tok ng) toks vals)
    (hg : NonNumeric ng g) :
    (read_ply ng fs filename P).ret = true ∧
      (read_ply ng fs filename P).points = P ++ triples vals ∧
      (triples vals).length = toks.length / 3 := by
  obtain ⟨hret, hpts⟩ := read_ply_body ng fs filename P header body hopen hheader
  have hloop := triple_loop_separated ng (g ++ junk) (Or.inr ⟨g, junk, hg, rfl⟩) _ toks vals
    true false body P rfl (fun h => Bool.noConfusion h) hbody htoks
  rw [hloop] at hpts
  exact ⟨hret, hpts, triples_length _ vals htoks.length_eq.symm⟩

/-- Witness of C6: the terminator, the line `1.0 2.0 3.0`, then the line `abc`: true
and exactly the one point (1.0, 2.0, 3.0); the same with one more well-formed line
after `abc`. -/
theorem C6_trailing_garbage_witness :
    ((read_ply classic (fun _ => some "end_header\n1.0 2.0 3.0\nabc\n".toList)
        "cloud.ply" []).ret = true ∧
      (read_ply classic (fun _ => some "end_header\n1.0 2.0 3.0\nabc\n".toList)
        "cloud.ply" []).points = [⟨⟨false, 10, -1⟩, ⟨false, 20, -1⟩, ⟨false, 30, -1⟩⟩]) ∧
    ((read_ply classic (fun _ => some "end_header\n1.0 2.0 3.0\nabc\n4 5 6\n".toList)
        "cloud.ply" []).ret = true ∧
      (read_ply classic (fun _ => some "end_header\n1.0 2.0 3.0\nabc\n4 5 6\n".toList)
        "cloud.ply" []).points = [⟨⟨false, 10, -1⟩, ⟨false, 20, -1⟩, ⟨false, 30, -1⟩⟩]) := by
  have htoks : List.Forall₂ (Tok classic) ["1.0".toList, "2.0".toList, "3.0".toList]
      [⟨false, 10, -1⟩, ⟨false, 20, -1⟩, ⟨false, 30, -1⟩] :=
    List.Forall₂.cons (classic_tok _ _ (by decide) (by decide) (by decide))
      (List.Forall₂.cons (classic_tok _ _ (by decide) (by decide) (by decide))
        (List.Forall₂.cons (classic_tok _ _ (by decide) (by decide) (by decide))
          List.Forall₂.nil))
  have habc : NonNumeric classic "abc".toList := ⟨by decide, by decide, fun _ => rfl⟩
  have h1 := C6_trailing_garbage classic
    (fun _ => some "end_header\n1.0 2.0 3.0\nabc\n".toList) "cloud.ply" [] []
    "1.0 2.0 3.0\nabc\n".toList "abc".toList "\n".toList
    ["1.0".toList, "2.0".toList, "3.0".toList]
    [⟨false, 10, -1⟩, ⟨false, 20, -1⟩, ⟨false, 30, -1⟩]
    rfl (by simp)
    (Separated.token "1.0".toList _ _ (Or.inr ⟨' ', _, rfl, rfl⟩)
      (Separated.space ' ' _ _ rfl
        (Separated.token "2.0".toList _ _ (Or.inr ⟨' ', _, rfl, rfl⟩)
          (Separated.space ' ' _ _ rfl
            (Separated.token "3.0".toList "\nabc\n".toList _
              (Or.inr ⟨'\n', _, rfl, rfl⟩)
              (Separated.space '\n' _ _ rfl Separated.done))))))
    htoks habc
  have h2 := C6_trailing_garbage classic
    (fun _ => some "end_header\n1.0 2.0 3.0\nabc\n4 5 6\n".toList) "cloud.ply" [] []
    "1.0 2.0 3.0\nabc\n4 5 6\n".toList "abc".toList "\n4 5 6\n".toList
    ["1.0".toList, "2.0".toList, "3.0".toList]
    [⟨false, 10, -1⟩, ⟨false, 20, -1⟩, ⟨false, 30, -1⟩]
    rfl (by simp)
    (Separated.token "1.0".toList _ _ (Or.inr ⟨' ', _, rfl, rfl⟩)
      (Separated.space ' ' _ _ rfl
        (Separated.token "2.0".toList _ _ (Or.inr ⟨' ', _, rfl, rfl⟩)
          (Separated.space ' ' _ _ rfl
            (Separated.token "3.0".toList "\nabc\n4 5 6\n".toList _
              (Or.inr ⟨'\n', _, rfl, rfl⟩)
              (Separated.space '\n' _ _ rfl Separated.done))))))
    htoks habc
  exact ⟨⟨h1.1, h1.2.1⟩, ⟨h2.1, h2.2.1⟩⟩

/-- C7: append-only frame.  For any initial sequence `P` and any file, the boolean
returned and the points appended are those of the call with an empty sequence, the
final sequence is `P` followed by the appended points, so `P` is a prefix of it, and
nothing is appended when the call fails. -/
theorem C7_append_only {D : Type} (ng : num_get D) (fs : FileSystem) (filename : String)
    (P : List (Point D)) :
    (read_ply ng fs filename P).ret = (read_ply ng fs filename []).ret ∧
      (read_ply ng fs filename P).points = P ++ (read_ply ng fs filename []).points ∧
      P <+: (read_ply ng fs filename P).points ∧
      ((read_ply ng fs filename []).ret = false → (read_ply ng fs filename []).points = []) := by
  have key : (read_ply ng fs filename P).ret = (read_ply ng fs filename []).ret ∧
      (read_ply ng fs filename P).points = P ++ (read_ply ng fs filename []).points ∧
      ((read_ply ng fs filename []).ret = false →
        (read_ply ng fs filename []).points = []) := by
    rcases hopen : fs filename with _ | b
    · rw [read_ply_closed ng fs filename P hopen, read_ply_closed ng fs filename [] hopen]
      simp
    · rw [read_ply_ret ng fs filename P b hopen, read_ply_ret ng fs filename [] b hopen,
        read_ply_points ng fs filename P b hopen, read_ply_points ng fs filename [] b hopen]
      cases hh : (header_loop ⟨true, b, false, false⟩).2
      · simp
      · simp only [if_true, true_and]
        rw [triple_loop_frame ng _ P]
        simp
  exact ⟨key.1, key.2.1, by rw [key.2.1]; exact List.prefix_append _ _, key.2.2⟩

theorem triples_getElem {D : Type} (i : Nat) :
    ∀ vals : List D, i < vals.length / 3 →
      ∃ x y z, vals[3 * i]? = some x ∧ vals[3 * i + 1]? = some y ∧
        vals[3 * i + 2]? = some z ∧ (triples vals)[i]? = some ⟨x, y, z⟩ := by
  induction i with
  | zero =>
    intro vals h
    match vals, h with
    | [], h => simp only [List.length_nil] at h; omega
    | [_], h => simp only [List.length_cons, List.length_nil] at h; omega
    | [_, _], h => simp only [List.length_cons, List.length_nil] at h; omega
    | x :: y :: z :: r, _ => exact ⟨x, y, z, by simp [triples]⟩
  | succ i ih =>
    intro vals h
    match vals, h with
    | [], h => simp only [List.length_nil] at h; omega
    | [_], h => simp only [List.length_cons, List.length_nil] at h; omega
    | [_, _], h => simp only [List.length_cons, List.length_nil] at h; omega
    | x :: y :: z :: r, h =>
      have hr : i < r.length / 3 := by
        simp only [List.length_cons] at h
        omega
      obtain ⟨a, b, c, ha, hb, hc, ht⟩ := ih r hr
      refine ⟨a, b, c, ?_, ?_, ?_, ?_⟩
      · rw [show 3 * (i + 1) = (3 * i) + 1 + 1 + 1 by ring]
        simpa using ha
      · rw [show 3 * (i + 1) + 1 = (3 * i + 1) + 1 + 1 + 1 by ring]
        simpa using hb
      · rw [show 3 * (i + 1) + 2 = (3 * i + 2) + 1 + 1 + 1 by ring]
        simpa using hc
      · simpa [triples] using ht

/-- C8: insufficient trailing tokens end parsing silently.  When the body is exactly
`k` well-formed numeric tokens separated by whitespace, `read_ply` returns true and
appends `k / 3` points, the `i`-th of them built from tokens `3i`, `3i+1`, `3i+2`; the
one or two tokens left over make no point. -/
theorem C8_leftover_tokens {D : Type} (ng : num_get D) (fs : FileSystem)
    (filename : String) (P : List (Point D)) (header : List (List Char))
    (body : List Char) (toks : List (List Char)) (vals : List D)
    (hopen : fs filename = some (linesText header ++ end_header ++ '\n' :: body))
    (hheader : ∀ l ∈ header, HeaderLine l)
    (hbody : Separated [] body toks)
    (htoks : List.Forall₂ (Tok ng) toks vals) :
    (read_ply ng fs filename P).ret = true ∧
      (read_ply ng fs filename P).points = P ++ triples vals ∧
      (triples vals).length = toks.length / 3 ∧
      ∀ i, i < toks.length / 3 →
        ∃ x y z, vals[3 * i]? = some x ∧ vals[3 * i + 1]? = some y ∧
          vals[3 * i + 2]? = some z ∧ (triples vals)[i]? = some ⟨x, y, z⟩ := by
  obtain ⟨hret, hpts⟩ := read_ply_body ng fs filename P header body hopen hheader
  have hloop := triple_loop_separated ng [] (Or.inl rfl) _ toks vals
    true false body P rfl (fun h => Bool.noConfusion h) hbody htoks
  rw [hloop] at hpts
  refine ⟨hret, hpts, triples_length _ vals htoks.length_eq.symm, ?_⟩
  intro i hi
  exact triples_getElem i vals (by rw [← htoks.length_eq]; exact hi)

/-- Witness of C8: five tokens, the last line without a newline: one point. -/
theorem C8_leftover_tokens_witness :
    (read_ply classic (fun _ => some "end_header\n1 2 3\n4 5".toList) "cloud.ply" []).ret
        = true ∧
      (read_ply classic (fun _ => some "end_header\n1 2 3\n4 5".toList) "cloud.ply"
        []).points = [⟨⟨false, 1, 0⟩, ⟨false, 2, 0⟩, ⟨false, 3, 0⟩⟩] := by
  have h := C8_leftover_tokens classic (fun _ => some "end_header\n1 2 3\n4 5".toList)
    "cloud.ply" [] [] "1 2 3\n4 5".toList
    ["1".toList, "2".toList, "3".toList, "4".toList, "5".toList]
    [⟨false, 1, 0⟩, ⟨false, 2, 0⟩, ⟨false, 3, 0⟩, ⟨false, 4, 0⟩, ⟨false, 5, 0⟩]
    rfl (by simp)
    (Separated.token "1".toList _ _ (Or.inr ⟨' ', _, rfl, rfl⟩)
      (Separated.space ' ' _ _ rfl
        (Separated.token "2".toList _ _ (Or.inr ⟨' ', _, rfl, rfl⟩)
          (Separated.space ' ' _ _ rfl
            (Separated.token "3".toList "\n4 5".toList _ (Or.inr ⟨'\n', _, rfl, rfl⟩)
              (Separated.space '\n' _ _ rfl
                (Separated.token "4".toList " 5".toList _ (Or.inr ⟨' ', _, rfl, rfl⟩)
                  (Separated.space ' ' _ _ rfl
                    (Separated.token "5".toList [] _ (Or.inl rfl)
                      Separated.done)))))))))
    (List.Forall₂.cons (classic_tok _ _ (by decide) (by decide) (by decide))
      (List.Forall₂.cons (classic_tok _ _ (by decide) (by decide) (by decide))
        (List.Forall₂.cons (classic_tok _ _ (by decide) (by decide) (by decide))
          (List.Forall₂.cons (classic_tok _ _ (by decide) (by decide) (by decide))
            (List.Forall₂.cons (classic_tok _ _ (by decide) (by decide) (by decide))
              List.Forall₂.nil)))))
  exact ⟨h.1, h.2.1⟩

/-- C9: header content is discarded.  Two files that open and have the same
terminator line and the same content after it, but any header lines before it (none of
them a terminator), make `read_ply` return the same boolean, which is true, and append
the same points; the header lines may hold numeric triples and need not hold any PLY
declaration. -/
theorem C9_header_discarded {D : Type} (ng : num_get D) (fs : FileSystem)
    (file1 file2 : String) (P : List (Point D)) (header1 header2 : List (List Char))
    (rest : List Char)
    (hopen1 : fs file1 = some (linesText header1 ++ end_header ++ rest))
    (hopen2 : fs file2 = some (linesText header2 ++ end_header ++ rest))
    (hheader1 : ∀ l ∈ header1, HeaderLine l)
    (hheader2 : ∀ l ∈ header2, HeaderLine l)
    (hrest : rest = [] ∨ ∃ body, rest = '\n' :: body) :
    (read_ply ng fs file1 P).ret = (read_ply ng fs file2 P).ret ∧
      (read_ply ng fs file1 P).points = (read_ply ng fs file2 P).points ∧
      (read_ply ng fs file1 P).ret = true := by
  rcases hrest with rfl | ⟨body, rfl⟩
  · rw [List.append_nil] at hopen1 hopen2
    obtain ⟨r1, p1⟩ := read_ply_body_eof ng fs file1 P header1 hopen1 hheader1
    obtain ⟨r2, p2⟩ := read_ply_body_eof ng fs file2 P header2 hopen2 hheader2
    exact ⟨by rw [r1, r2], by rw [p1, p2], r1⟩
  · obtain ⟨r1, p1⟩ := read_ply_body ng fs file1 P header1 body hopen1 hheader1
    obtain ⟨r2, p2⟩ := read_ply_body ng fs file2 P header2 body hopen2 hheader2
    exact ⟨by rw [r1, r2], by rw [p1, p2], r1⟩

/-- Witness of C9: a header that holds a numeric triple against no header at all. -/
theorem C9_header_discarded_witness :
    (read_ply classic
        (fun name => if name = "a.ply" then some "ply\n7 8 9\nend_header\n1 2 3\n".toList
          else some "end_header\n1 2 3\n".toList) "a.ply" []).points =
      (read_ply classic
        (fun name => if name = "a.ply" then some "ply\n7 8 9\nend_header\n1 2 3\n".toList
          else some "end_header\n1 2 3\n".toList) "b.ply" []).points :=
  (C9_header_discarded classic
    (fun name => if name = "a.ply" then some "ply\n7 8 9\nend_header\n1 2 3\n".toList
      else some "end_header\n1 2 3\n".toList) "a.ply" "b.ply" []
    ["ply".toList, "7 8 9".toList] [] "\n1 2 3\n".toList (by decide) (by decide)
    (by
      intro l hl
      simp only [List.mem_cons, List.mem_singleton, List.not_mem_nil, or_false] at hl
      rcases hl with rfl | rfl <;> exact ⟨by decide, by decide⟩)
    (by simp) (Or.inr ⟨"1 2 3\n".toList, rfl⟩)).2.1

theorem separated_intercalate (toks : List (List Char)) :
    Separated [] ([' '].intercalate toks) toks := by
  induction toks with
  | nil => exact Separated.done
  | cons t ts ih =>
    cases ts with
    | nil =>
      have h : [' '].intercalate [t] = t ++ [] := by simp [List.intercalate]
      rw [h]
      exact Separated.token t [] [] (Or.inl rfl) Separated.done
    | cons u us =>
      have h : [' '].intercalate (t :: u :: us) = t ++ ' ' :: [' '].intercalate (u :: us) := by
        simp [List.intercalate]
      rw [h]
      exact Separated.token t _ _ (Or.inr ⟨' ', _, rfl, rfl⟩) (Separated.space ' ' _ _ rfl ih)

theorem tokens_values {D : Type} (ng : num_get D) (toks : List (List Char))
    (h : ∀ t ∈ toks, ∃ v, Tok ng t v) : ∃ vals, List.Forall₂ (Tok ng) toks vals := by
  induction toks with
  | nil => exact ⟨[], List.Forall₂.nil⟩
  | cons t ts ih =>
    obtain ⟨v, hv⟩ := h t (by simp)
    obtain ⟨vs, hvs⟩ := ih (fun u hu => h u (by simp [hu]))
    exact ⟨v :: vs, List.Forall₂.cons hv hvs⟩

/-- C10: whitespace agnosticism of the body.  Two files with the same header and
terminator, one whose body holds the well-formed numeric tokens `toks` separated by
any whitespace (several on a line, a triple split across lines, blank lines), the
other holding the same tokens separated by single spaces, make `read_ply` return the
same boolean and append the same points. -/
theorem C10_whitespace_agnostic {D : Type} (ng : num_get D) (fs : FileSystem)
    (file1 file2 : String) (P : List (Point D)) (header : List (List Char))
    (body : List Char) (toks : List (List Char))
    (hopen1 : fs file1 = some (linesText header ++ end_header ++ '\n' :: body))
    (hopen2 : fs file2 =
      some (linesText header ++ end_header ++ '\n' :: [' '].intercalate toks))
    (hheader : ∀ l ∈ header, HeaderLine l)
    (hbody : Separated [] body toks)
    (htoks : ∀ t ∈ toks, ∃ v, Tok ng t v) :
    (read_ply ng fs file1 P).ret = (read_ply ng fs file2 P).ret ∧
      (read_ply ng fs file1 P).points = (read_ply ng fs file2 P).points := by
  obtain ⟨vals, hvals⟩ := tokens_values ng toks htoks
  obtain ⟨r1, p1⟩ := read_ply_body ng fs file1 P header body hopen1 hheader
  obtain ⟨r2, p2⟩ := read_ply_body ng fs file2 P header _ hopen2 hheader
  have l1 := triple_loop_separated ng [] (Or.inl rfl) _ toks vals
    true false body P rfl (fun h => Bool.noConfusion h) hbody hvals
  have l2 := triple_loop_separated ng [] (Or.inl rfl) _ toks vals
    true false _ P rfl (fun h => Bool.noConfusion h) (separated_intercalate toks) hvals
  exact ⟨by rw [r1, r2], by rw [p1, p2, l1, l2]⟩

/-- Witness of C10: a tab, a blank line and a triple split across lines against
single spaces. -/
theorem C10_whitespace_agnostic_witness :
    (read_ply classic
        (fun name => if name = "a.ply" then some "ply\nend_header\n1\t2\n\n 3\n".toList
          else some "ply\nend_header\n1 2 3".toList) "a.ply" []).points =
      (read_ply classic
        (fun name => if name = "a.ply" then some "ply\nend_header\n1\t2\n\n 3\n".toList
          else some "ply\nend_header\n1 2 3".toList) "b.ply" []).points :=
  (C10_whitespace_agnostic classic
    (fun name => if name = "a.ply" then some "ply\nend_header\n1\t2\n\n 3\n".toList
      else some "ply\nend_header\n1 2 3".toList) "a.ply" "b.ply" []
    ["ply".toList] "1\t2\n\n 3\n".toList ["1".toList, "2".toList, "3".toList]
    (by decide) (by decide)
    (by
      intro l hl
      simp only [List.mem_singleton] at hl
      subst hl
      exact ⟨by decide, by decide⟩)
    (Separated.token "1".toList _ _ (Or.inr ⟨'\t', _, rfl, rfl⟩)
      (Separated.space '\t' _ _ rfl
        (Separated.token "2".toList "\n\n 3\n".toList _ (Or.inr ⟨'\n', _, rfl, rfl⟩)
          (Separated.space '\n' _ _ rfl
            (Separated.space '\n' _ _ rfl
              (Separated.space ' ' _ _ rfl
                (Separated.token "3".toList "\n".toList _ (Or.inr ⟨'\n', _, rfl, rfl⟩)
                  (Separated.space '\n' _ _ rfl Separated.done))))))))
    (by
      intro t ht
      simp only [List.mem_cons, List.mem_singleton, List.not_mem_nil, or_false] at ht
      rcases ht with rfl | rfl | rfl
      · exact ⟨_, classic_tok _ ⟨false, 1, 0⟩ (by decide) (by decide) (by decide)⟩
      · exact ⟨_, classic_tok _ ⟨false, 2, 0⟩ (by decide) (by decide) (by decide)⟩
      · exact ⟨_, classic_tok _ ⟨false, 3, 0⟩ (by decide) (by decide) (by decide)⟩)).2

/-! ## Empty body, diagnostics and the file handle -/

/-- C11: empty body.  A file whose whole content is the single line `end_header`,
with or without a final newline, makes `read_ply` return true and append no point. -/
theorem C11_empty_body {D : Type} (ng : num_get D) (fs : FileSystem) (filename : String)
    (P : List (Point D)) (content : List Char)
    (hopen : fs filename = some content)
    (hcontent : content = end_header ∨ content = end_header ++ ['\n']) :
    (read_ply ng fs filename P).ret = true ∧ (read_ply ng fs filename P).points = P := by
  rcases hcontent with rfl | rfl
  · exact read_ply_body_eof ng fs filename P [] (by simpa [linesText] using hopen) (by simp)
  · obtain ⟨hret, hpts⟩ := read_ply_body ng fs filename P [] []
      (by simpa [linesText] using hopen) (by simp)
    refine ⟨hret, ?_⟩
    rw [hpts]
    have h1 := extract_nil ng true false
    have h2 := extract_failbit_mono ng _ h1
    have h3 := extract_failbit_mono ng _ h2
    rw [triple_loop_stop ng _ P h3]

/-- Witness of C11: the terminator alone, without and with the final newline, read
into a sequence that already holds one point. -/
theorem C11_empty_body_witness :
    ((read_ply classic (fun _ => some "end_header".toList) "cloud.ply"
        [⟨⟨false, 7, 0⟩, ⟨false, 8, 0⟩, ⟨false, 9, 0⟩⟩]).ret = true ∧
      (read_ply classic (fun _ => some "end_header".toList) "cloud.ply"
        [⟨⟨false, 7, 0⟩, ⟨false, 8, 0⟩, ⟨false, 9, 0⟩⟩]).points =
        [⟨⟨false, 7, 0⟩, ⟨false, 8, 0⟩, ⟨false, 9, 0⟩⟩]) ∧
    ((read_ply classic (fun _ => some "end_header\n".toList) "cloud.ply" []).ret = true ∧
      (read_ply classic (fun _ => some "end_header\n".toList) "cloud.ply" []).points = []) :=
  ⟨C11_empty_body classic (fun _ => some "end_header".toList) "cloud.ply" _
      "end_header".toList rfl (Or.inl rfl),
    C11_empty_body classic (fun _ => some "end_header\n".toList) "cloud.ply" []
      "end_header\n".toList rfl (Or.inr rfl)⟩

theorem read_ply_cerr {D : Type} (ng : num_get D) (fs : FileSystem) (filename : String)
    (P : List (Point D)) (b : List Char) (h : fs filename = some b) :
    (read_ply ng fs filename P).cerr =
      if (header_loop ⟨true, b, false, false⟩).2 = true then []
      else ["PLY format not valid: missing 'end_header'.\n"] := by
  simp only [read_ply, ifstream.init, h, ifstream.fail]
  cases (header_loop ⟨true, b, false, false⟩).2 <;> simp

/-- C12: diagnostics are written exactly on the two failure paths.  When the open
fails the log holds one message, which contains the path; when the file opens and has
no terminator line it holds one message about the missing `end_header`; when the call
returns true it holds nothing; so a diagnostic is written if and only if the result is
false. -/
theorem C12_diagnostics {D : Type} (ng : num_get D) (fs : FileSystem) (filename : String)
    (P : List (Point D)) :
    (fs filename = none →
        (read_ply ng fs filename P).cerr = ["Cannot load PLY: " ++ filename ++ "\n"]) ∧
      (∀ b, fs filename = some b → end_header ∉ b.splitOn '\n' →
        (read_ply ng fs filename P).cerr =
          ["PLY format not valid: missing 'end_header'.\n"]) ∧
      ((read_ply ng fs filename P).ret = true → (read_ply ng fs filename P).cerr = []) ∧
      ((read_ply ng fs filename P).cerr ≠ [] ↔ (read_ply ng fs filename P).ret = false) := by
  rcases hopen : fs filename with _ | b
  · rw [read_ply_closed ng fs filename P hopen]
    simp
  · rw [read_ply_cerr ng fs filename P b hopen, read_ply_ret ng fs filename P b hopen]
    have hiff := header_loop_iff b.length true b rfl
    refine ⟨fun h => by simp at h, ?_, ?_, ?_⟩
    · intro b1 hb1 hno
      simp only [Option.some.injEq] at hb1
      subst hb1
      cases hh : (header_loop ⟨true, b, false, false⟩).2
      · simp
      · exact (hno (hiff.mp hh)).elim
    · intro h
      simp [h]
    · cases hh : (header_loop ⟨true, b, false, false⟩).2 <;> simp

theorem getline_is_open (s : ifstream) : (getline s).1.is_open = s.is_open := by
  unfold getline
  split
  · rcases takeLine s.rdbuf with ⟨line, _ | rest⟩ <;> rfl
  · rfl

theorem header_loop_is_open (s : ifstream) : (header_loop s).1.is_open = s.is_open := by
  induction s using header_loop.induct with
  | case1 s hf he =>
    rw [header_loop]
    simp [hf, he, getline_is_open]
  | case2 s hf he ih =>
    rw [header_loop]
    simp only [hf, he, dite_true, if_false]
    rw [ih, getline_is_open]
  | case3 s hf =>
    rw [header_loop]
    simp [hf, getline_is_open]

theorem extract_is_open {D : Type} (ng : num_get D) (s : ifstream) :
    (extract ng s).1.is_open = s.is_open := by
  unfold extract
  split
  · split <;> rfl
  · rfl

theorem triple_loop_is_open {D : Type} (ng : num_get D) (s : ifstream)
    (P : List (Point D)) : (triple_loop ng s P).1.is_open = s.is_open := by
  induction s, P using triple_loop.induct ng with
  | case1 s P hf x y z hz hy hx ih =>
    rw [triple_loop_unfold_some ng s x y z P hf hx hy hz, ih]
    simp [extract_is_open]
  | case2 s P hf hno =>
    rw [triple_loop]
    simp only [hf, dite_true]
    simp [extract_is_open]
  | case3 s P hf =>
    have hf1 : (extract ng (extract ng (extract ng s).1).1).1.failbit = true := by
      simpa using hf
    rw [triple_loop_stop ng s P hf1]
    simp [extract_is_open]

/-- C13: the file handle is released on every return path.  Whenever the file was
opened, the stream holds the handle during the header scan and the triple loop, and
holds none when the call has returned, on the success path (after `in.close()`), on the
missing-terminator path (where the destructor of `in` releases it) and when the open
failed. -/
theorem C13_handle_released {D : Type} (ng : num_get D) (fs : FileSystem)
    (filename : String) (P : List (Point D)) :
    (read_ply ng fs filename P).stream.is_open = false ∧
      (∀ b, fs filename = some b →
        (ifstream.init fs filename).is_open = true ∧
        (header_loop (ifstream.init fs filename)).1.is_open = true ∧
        (triple_loop ng (header_loop (ifstream.init fs filename)).1 P).1.is_open = true ∧
        (triple_loop ng (header_loop (ifstream.init fs filename)).1 P).1.close.is_open
          = false) := by
  refine ⟨?_, ?_⟩
  · unfold read_ply
    split
    · rfl
    · split <;> rfl
  · intro b hb
    have h0 : (ifstream.init fs filename).is_open = true := by
      simp [ifstream.init, hb]
    have h1 : (header_loop (ifstream.init fs filename)).1.is_open = true := by
      rw [header_loop_is_open, h0]
    have h2 : (triple_loop ng (header_loop (ifstream.init fs filename)).1 P).1.is_open
        = true := by
      rw [triple_loop_is_open, h1]
    exact ⟨h0, h1, h2, by simp [ifstream.close, h2]⟩

theorem not_carries_other_end_header : ¬ CarriesOther end_header := by
  rintro ⟨pre, post, heq, c, hc, _⟩
  have hlen := congrArg List.length heq
  simp only [List.length_append] at hlen
  have hpre : pre = [] := List.eq_nil_of_length_eq_zero (by omega)
  have hpost : post = [] := List.eq_nil_of_length_eq_zero (by omega)
  subst hpre hpost
  simp at hc

/-- C14: the terminator test is whole-line equality, not containment.  When the file
opens and every line in which `end_header` occurs carries some other non-whitespace
character (`comment end_header`, `end_header 1 2 3`, `end_headers`), no line is taken
for the terminator: `read_ply` returns false and the sequence is the one passed in. -/
theorem C14_whole_line_equality {D : Type} (ng : num_get D) (fs : FileSystem)
    (filename : String) (P : List (Point D)) (b : List Char)
    (hopen : fs filename = some b)
    (honly : ∀ l ∈ b.splitOn '\n', end_header <:+: l → CarriesOther l) :
    (read_ply ng fs filename P).ret = false ∧ (read_ply ng fs filename P).points = P := by
  apply read_ply_no_terminator ng fs filename P b hopen
  intro hmem
  exact not_carries_other_end_header (honly end_header hmem (List.infix_refl _))

/-- Witness of C14: `end_header` inside a comment line, before numbers and as the
start of a longer word, followed by a well-formed triple. -/
theorem C14_whole_line_equality_witness :
    (read_ply classic
        (fun _ => some "comment end_header\nend_header 1 2 3\nend_headers\n1 2 3\n".toList)
        "cloud.ply" []).ret = false ∧
      (read_ply classic
        (fun _ => some "comment end_header\nend_header 1 2 3\nend_headers\n1 2 3\n".toList)
        "cloud.ply" []).points = [] :=
  C14_whole_line_equality classic
    (fun _ => some "comment end_header\nend_header 1 2 3\nend_headers\n1 2 3\n".toList)
    "cloud.ply" [] "comment end_header\nend_header 1 2 3\nend_headers\n1 2 3\n".toList rfl
    (by
      intro l hl hinf
      have hsplit : "comment end_header\nend_header 1 2 3\nend_headers\n1 2 3\n".toList.splitOn
          '\n' = ["comment end_header".toList, "end_header 1 2 3".toList,
            "end_headers".toList, "1 2 3".toList, []] := by decide
      rw [hsplit] at hl
      simp only [List.mem_cons, List.mem_singleton, List.not_mem_nil, or_false] at hl
      rcases hl with rfl | rfl | rfl | rfl | rfl
      · exact ⟨"comment ".toList, [], by decide, 'c', by decide, by decide⟩
      · exact ⟨[], " 1 2 3".toList, by decide, '1', by decide, by decide⟩
      · exact ⟨[], "s".toList, by decide, 's', by decide, by decide⟩
      · exact absurd hinf.length_le (by decide)
      · exact absurd hinf.length_le (by decide))

/-! ## A second terminator line -/

theorem linesText_getLast (ls : List (List Char)) :
    ∀ c, (linesText ls).getLast? = some c → c = '\n' := by
  induction ls with
  | nil => intro c h; simp [linesText] at h
  | cons l ls ih =>
    intro c h
    have h1 : linesText (l :: ls) = (l ++ ['\n']) ++ linesText ls := by simp [linesText]
    rw [h1] at h
    by_cases hnil : linesText ls = []
    · rw [hnil, List.append_nil, List.getLast?_append] at h
      simp at h
      exact h.symm
    · rw [List.getLast?_append_of_ne_nil _ hnil] at h
      exact ih c h

theorem separated_append {D : Type} (ng : num_get D) (r : List Char) (a : List Char)
    (toks0 : List (List Char)) (h : Separated [] a toks0) :
    ∀ vals : List D, List.Forall₂ (Tok ng) toks0 vals →
      (∀ c, a.getLast? = some c → isspace c = true) → Separated r (a ++ r) toks0 := by
  induction h with
  | done => intro _ _ _; exact Separated.done
  | space c b toks hc _ ih =>
    intro vals hv hlast
    refine Separated.space c (b ++ r) toks hc (ih vals hv ?_)
    intro d hd
    cases b with
    | nil => simp at hd
    | cons e b1 => exact hlast d (by rw [List.getLast?_cons_cons]; exact hd)
  | token t b toks hd hs ih =>
    intro vals hv hlast
    cases hv with
    | @cons _ v _ vals1 ht hv1 =>
      have hne := tok_ne_nil ng t v ht
      cases b with
      | nil =>
        exfalso
        rw [List.append_nil] at hlast
        obtain ⟨c, hc⟩ : ∃ c, t.getLast? = some c := by
          cases hl : t.getLast? with
          | none => exact (hne (List.getLast?_eq_none_iff.mp hl)).elim
          | some c => exact ⟨c, rfl⟩
        have h1 := hlast c hc
        have h2 := ht.1 c (List.mem_of_getLast?_eq_some hc)
        rw [h1] at h2
        exact Bool.noConfusion h2
      | cons e b1 =>
        have hlast1 : ∀ c, (e :: b1).getLast? = some c → isspace c = true := by
          intro c hc
          exact hlast c (by rw [List.getLast?_append_of_ne_nil _ (by simp)]; exact hc)
        have hdel : Delimited ((e :: b1) ++ r) := by
          rcases hd with h0 | ⟨c, r1, h0, hc⟩
          · simp at h0
          · simp only [List.cons.injEq] at h0
            obtain ⟨rfl, rfl⟩ := h0
            exact Or.inr ⟨e, b1 ++ r, rfl, hc⟩
        have := Separated.token t ((e :: b1) ++ r) toks hdel (ih vals1 hv1 hlast1)
        rw [List.append_assoc]
        exact this

/-- C15, as stated, fails: the file has two lines equal to `end_header` and the line
`1 2 3`, a complete triple of well-formed tokens, lies between them; but the line `abc`
comes first, the first extraction fails on it, and `read_ply` returns true without
appending the triple. -/
theorem C15_counterexample :
    "end_header\nabc\n1 2 3\nend_header\n5 6 7\n".toList.splitOn '\n' =
        [end_header, "abc".toList, "1 2 3".toList, end_header, "5 6 7".toList, []] ∧
      (Tok classic "1".toList ⟨false, 1, 0⟩ ∧ Tok classic "2".toList ⟨false, 2, 0⟩ ∧
        Tok classic "3".toList ⟨false, 3, 0⟩) ∧
      (read_ply classic (fun _ => some "end_header\nabc\n1 2 3\nend_header\n5 6 7\n".toList)
        "cloud.ply" []).ret = true ∧
      (read_ply classic (fun _ => some "end_header\nabc\n1 2 3\nend_header\n5 6 7\n".toList)
        "cloud.ply" []).points = [] := by
  refine ⟨by decide, ⟨classic_tok _ _ (by decide) (by decide) (by decide),
    classic_tok _ _ (by decide) (by decide) (by decide),
    classic_tok _ _ (by decide) (by decide) (by decide)⟩, ?_⟩
  have hb := read_ply_body classic
    (fun _ => some "end_header\nabc\n1 2 3\nend_header\n5 6 7\n".toList) "cloud.ply" [] []
    "abc\n1 2 3\nend_header\n5 6 7\n".toList rfl (by simp)
  refine ⟨hb.1, ?_⟩
  rw [hb.2, triple_loop_stop classic _ _ (by decide)]

/-- C15, amended: the first terminator line wins.  In a file with a second line equal
to `end_header` in which the lines between the first and the second hold nothing but
whitespace-separated well-formed numeric tokens, the body starts right after the first
one, the second `end_header` is a non-numeric token that ends parsing, and exactly the
complete triples between the two terminator lines are appended, whatever follows the
second one (the text `after`; the theorem holds for any). -/
theorem C15_first_terminator_wins {D : Type} (ng : num_get D) (fs : FileSystem)
    (filename : String) (P : List (Point D)) (header between : List (List Char))
    (after : List Char) (toks : List (List Char)) (vals : List D)
    (hopen : fs filename = some (linesText header ++ end_header ++
      '\n' :: (linesText between ++ (end_header ++ after))))
    (hheader : ∀ l ∈ header, HeaderLine l)
    (hbetween : Separated [] (linesText between) toks)
    (htoks : List.Forall₂ (Tok ng) toks vals)
    (hterm : NonNumeric ng end_header) :
    (read_ply ng fs filename P).ret = true ∧
      (read_ply ng fs filename P).points = P ++ triples vals ∧
      (triples vals).length = toks.length / 3 := by
  obtain ⟨hret, hpts⟩ := read_ply_body ng fs filename P header _ hopen hheader
  have hsep : Separated (end_header ++ after) (linesText between ++ (end_header ++ after))
      toks := by
    apply separated_append ng _ _ _ hbetween vals htoks
    intro c hc
    rw [linesText_getLast between c hc]
    rfl
  have hloop := triple_loop_separated ng (end_header ++ after)
    (Or.inr ⟨end_header, after, hterm, rfl⟩) _ toks vals
    true false _ P rfl (fun h => Bool.noConfusion h) hsep htoks
  rw [hloop] at hpts
  exact ⟨hret, hpts, triples_length _ vals htoks.length_eq.symm⟩

/-- Witness of C15: one triple and a leftover token between two terminator lines, a
triple after the second. -/
theorem C15_first_terminator_wins_witness :
    (read_ply classic
        (fun _ => some "ply\nend_header\n1 2 3\n4\nend_header\n5 6 7\n".toList)
        "cloud.ply" []).ret = true ∧
      (read_ply classic
        (fun _ => some "ply\nend_header\n1 2 3\n4\nend_header\n5 6 7\n".toList)
        "cloud.ply" []).points = [⟨⟨false, 1, 0⟩, ⟨false, 2, 0⟩, ⟨false, 3, 0⟩⟩] := by
  have h := C15_first_terminator_wins classic
    (fun _ => some "ply\nend_header\n1 2 3\n4\nend_header\n5 6 7\n".toList)
    "cloud.ply" [] ["ply".toList] ["1 2 3".toList, "4".toList] "\n5 6 7\n".toList
    ["1".toList, "2".toList, "3".toList, "4".toList]
    [⟨false, 1, 0⟩, ⟨false, 2, 0⟩, ⟨false, 3, 0⟩, ⟨false, 4, 0⟩]
    (by decide)
    (by
      intro l hl
      simp only [List.mem_singleton] at hl
      subst hl
      exact ⟨by decide, by decide⟩)
    (Separated.token "1".toList " 2 3\n4\n".toList _ (Or.inr ⟨' ', _, rfl, rfl⟩)
      (Separated.space ' ' _ _ rfl
        (Separated.token "2".toList " 3\n4\n".toList _ (Or.inr ⟨' ', _, rfl, rfl⟩)
          (Separated.space ' ' _ _ rfl
            (Separated.token "3".toList "\n4\n".toList _ (Or.inr ⟨'\n', _, rfl, rfl⟩)
              (Separated.space '\n' _ _ rfl
                (Separated.token "4".toList "\n".toList _ (Or.inr ⟨'\n', _, rfl, rfl⟩)
                  (Separated.space '\n' _ _ rfl Separated.done))))))))
    (List.Forall₂.cons (classic_tok _ _ (by decide) (by decide) (by decide))
      (List.Forall₂.cons (classic_tok _ _ (by decide) (by decide) (by decide))
        (List.Forall₂.cons (classic_tok _ _ (by decide) (by decide) (by decide))
          (List.Forall₂.cons (classic_tok _ _ (by decide) (by decide) (by decide))
            List.Forall₂.nil))))
    ⟨by decide, by decide, fun _ => rfl⟩
  exact ⟨h.1, h.2.1⟩

/-! ## Termination and the number of points -/

theorem skipws_le (b : List Char) : (skipws b).length ≤ b.length := by
  induction b with
  | nil => simp [skipws]
  | cons c cs ih =>
    unfold skipws
    split
    · simp only [List.length_cons]; omega
    · simp

theorem getline_progress (s : ifstream) (h : (getline s).1.failbit = false) :
    (getline s).1.fuel < s.fuel := by
  obtain ⟨o, b, e, f⟩ := s
  cases e <;> cases f <;> simp [getline, ifstream.good] at h
  simp only [getline, ifstream.good, ifstream.fuel, Bool.not_false, Bool.and_self, if_true]
  rcases hl : takeLine b with ⟨line, _ | rest⟩
  · simp
  · have := takeLine_rest_length b rest (by rw [hl])
    simp
    omega

theorem extract_progress {D : Type} (ng : num_get D) (s : ifstream)
    (h : (extract ng s).1.failbit = false) :
    (extract ng s).1.rdbuf.length + 1 ≤ s.rdbuf.length := by
  obtain ⟨o, b, e, f⟩ := s
  cases e <;> cases f <;> simp [extract, ifstream.good] at h
  simp only [extract, ifstream.good, Bool.not_false, Bool.and_self, if_true]
  rcases hk : skipws b with _ | ⟨c, cs⟩
  · simp [hk] at h
  · simp only [hk] at h
    have h2 := skipws_le b
    rw [hk] at h2
    rcases hv : (ng.get (c :: cs)).1 with _ | v
    · simp [hv] at h
    · have h1 := ng.get_lt (c :: cs) v hv
      simp only
      omega

theorem failbit_false_of_extract {D : Type} (ng : num_get D) (s : ifstream)
    (h : (extract ng s).1.failbit = false) : s.failbit = false := by
  cases hs : s.failbit
  · rfl
  · rw [extract_failbit_mono ng s hs] at h
    exact Bool.noConfusion h

theorem triple_progress {D : Type} (ng : num_get D) (s : ifstream)
    (h : (extract ng (extract ng (extract ng s).1).1).1.failbit = false) :
    (extract ng (extract ng (extract ng s).1).1).1.rdbuf.length + 3 ≤ s.rdbuf.length := by
  have h2 := failbit_false_of_extract ng _ h
  have h1 := failbit_false_of_extract ng _ h2
  have p3 := extract_progress ng _ h
  have p2 := extract_progress ng _ h2
  have p1 := extract_progress ng _ h1
  omega

theorem triple_loop_length {D : Type} (ng : num_get D) (s : ifstream)
    (P : List (Point D)) :
    3 * (triple_loop ng s P).2.length ≤ 3 * P.length + s.rdbuf.length := by
  induction s, P using triple_loop.induct ng with
  | case1 s P hf x y z hz hy hx ih =>
    rw [triple_loop_unfold_some ng s x y z P hf hx hy hz]
    have hp := triple_progress ng s hf
    simp only [List.length_append, List.length_singleton] at ih
    omega
  | case2 s P hf hno =>
    rw [triple_loop]
    simp only [hf, dite_true]
    simp
  | case3 s P hf =>
    have hf1 : (extract ng (extract ng (extract ng s).1).1).1.failbit = true := by
      simpa using hf
    rw [triple_loop_stop ng s P hf1]
    simp

/-- C16, as stated, fails in its bound: the body `1-2-3` holds one whitespace-separated
token, and one point is appended, which is more than a third of one. -/
theorem C16_counterexample :
    wsTokens "1-2-3\n".toList = ["1-2-3".toList] ∧
      (read_ply classic (fun _ => some "end_header\n1-2-3\n".toList) "cloud.ply" []).points
        = [⟨⟨false, 1, 0⟩, ⟨true, 2, 0⟩, ⟨true, 3, 0⟩⟩] ∧
      ¬ 3 * (read_ply classic (fun _ => some "end_header\n1-2-3\n".toList) "cloud.ply"
          []).points.length ≤ (wsTokens "1-2-3\n".toList).length := by
  have hpts : (read_ply classic (fun _ => some "end_header\n1-2-3\n".toList) "cloud.ply"
      []).points = [⟨⟨false, 1, 0⟩, ⟨true, 2, 0⟩, ⟨true, 3, 0⟩⟩] := by
    have hb := read_ply_body classic (fun _ => some "end_header\n1-2-3\n".toList)
      "cloud.ply" [] [] "1-2-3\n".toList rfl (by simp)
    rw [hb.2]
    rw [triple_loop_step classic ⟨true, "1-2-3\n".toList, false, false⟩
      ⟨true, "-2-3\n".toList, false, false⟩
      ⟨true, "-3\n".toList, false, false⟩
      ⟨true, "\n".toList, false, false⟩
      ⟨false, 1, 0⟩ ⟨true, 2, 0⟩ ⟨true, 3, 0⟩ [] (by decide) (by decide) (by decide) rfl]
    rw [triple_loop_stop classic _ _ (by decide)]
    rfl
  refine ⟨by decide, hpts, ?_⟩
  rw [hpts]
  decide

/-- C16, amended: `read_ply` terminates on every finite file content.  Each iteration
of the header scan that goes on strictly lowers the measure of the remaining input,
each iteration of the triple loop that appends a point consumes at least three
characters, so both loops are total functions by recursion on the remaining input;
and the number of appended points is at most one third of the number of characters
after the terminator line. -/
theorem C16_termination_bound {D : Type} (ng : num_get D) (fs : FileSystem)
    (filename : String) (P : List (Point D)) (header : List (List Char))
    (body : List Char)
    (hopen : fs filename = some (linesText header ++ end_header ++ '\n' :: body))
    (hheader : ∀ l ∈ header, HeaderLine l) :
    (∀ s : ifstream, (getline s).1.failbit = false → (getline s).1.fuel < s.fuel) ∧
      (∀ s : ifstream, (extract ng (extract ng (extract ng s).1).1).1.failbit = false →
        (extract ng (extract ng (extract ng s).1).1).1.rdbuf.length + 3 ≤ s.rdbuf.length) ∧
      ∃ appended, (read_ply ng fs filename P).points = P ++ appended ∧
        3 * appended.length ≤ body.length := by
  refine ⟨getline_progress, triple_progress ng, ?_⟩
  obtain ⟨_, hpts⟩ := read_ply_body ng fs filename P header body hopen hheader
  refine ⟨(triple_loop ng ⟨true, body, false, false⟩ []).2, ?_, ?_⟩
  · rw [hpts, triple_loop_frame ng _ P]
  · have := triple_loop_length ng ⟨true, body, false, false⟩ []
    simpa using this

/-- Witness of C16: a body of six characters; the one point appended takes three of
them at least. -/
theorem C16_termination_bound_witness :
    ∃ appended,
      (read_ply classic (fun _ => some "end_header\n1-2-3\n".toList) "cloud.ply" []).points
        = [] ++ appended ∧ 3 * appended.length ≤ "1-2-3\n".toList.length :=
  (C16_termination_bound classic (fun _ => some "end_header\n1-2-3\n".toList) "cloud.ply"
    [] [] "1-2-3\n".toList rfl (by simp)).2.2

/-! ## Range of the classic facet -/

theorem overflow_threshold_eq : overflow_threshold = 2 ^ 1024 - 2 ^ 970 := by
  unfold overflow_threshold
  norm_num

theorem classic_largest_double :
    (classic.get "1.7976931348623157e308".toList).1 =
      some ⟨false, 17976931348623157, 292⟩ := by decide!

theorem classic_out_of_range :
    (classic.get "1e999 2 3".toList).1 = none ∧ (classic.get "-1e309".toList).1 = none ∧
      (classic.get "1.7976931348623159e308".toList).1 = none := by
  refine ⟨by decide!, by decide!, by decide!⟩

end ReadPly
